import Mathlib

/-!
Verification development for the heuristic authorship obfuscation program.

The development shallowly embeds the parts of the C++ sources that the
checked properties are about:

* `NgramProfile` (src/obfuscation/util/NgramProfile.cpp): `update`, `apply`,
  `freq`, `size`, `n`, `clone`, `generateFromString`, the merge `Iterator`,
  and the free functions `ngramFromStringRange` / `ngramsFromStringRange`.
* `OpenList` (src/search-generic/search/generic/OpenList.hpp) together with
  reference implementations of the `std::push_heap` / `std::pop_heap` /
  `std::make_heap` algorithms it calls.
* `ComputeCostH::operator()` (src/obfuscation/ComputeCostH.cpp).
* `DiffString` (src/obfuscation/util/DiffString.cpp) together with the MD5
  digest it calls.
* `ObfuscationOperator::updateSuccessor`
  (src/obfuscation/operators/ObfuscationOperator.cpp).

Modelling conventions: texts are lists of bytes (`List Nat`, each < 256);
`std::map` is a key-sorted association list; `std::size_t` counters are
naturals with arithmetic taken modulo 2 ^ 64 exactly as the unsigned C++
arithmetic behaves; C++ `double` values appearing only through comparisons
and field copies are embedded as rationals, and the real-valued heuristic
formula is embedded over `ℝ`.
-/

namespace Obf

/-- Width of `std::size_t` arithmetic: all unsigned counters wrap mod 2 ^ 64. -/
def szMod : Nat := 2 ^ 64

/-- Semantics of `size_t x; x += (int)d` in C++: two's-complement wrap-around
addition of a signed delta to an unsigned counter. -/
def addDelta (v : Nat) (d : Int) : Nat :=
  (((v : Int) + d) % (szMod : Int)).toNat

/-- Model of `NgramProfile::NgramMap = std::map<Nat, std::size_t>`:
an association list kept strictly sorted by key. -/
abbrev NgramMap := List (Nat × Nat)

/-- Keys strictly ascending: the `std::map` ordering invariant. -/
def MapSorted (m : NgramMap) : Prop :=
  m.Pairwise (fun a b => a.1 < b.1)

instance (m : NgramMap) : Decidable (MapSorted m) := by
  unfold MapSorted; infer_instance

/-- Lookup in a `std::map` (`find`). -/
def mapFind (m : NgramMap) (k : Nat) : Option Nat :=
  match m with
  | [] => none
  | (k', v) :: rest => if k = k' then some v else mapFind rest k

/-- Sorted insert-or-assign: the effect of `m[k] = v` on a `std::map`. -/
def mapSet (m : NgramMap) (k : Nat) (v : Nat) : NgramMap :=
  match m with
  | [] => [(k, v)]
  | (k', v') :: rest =>
    if k < k' then (k, v) :: (k', v') :: rest
    else if k = k' then (k, v) :: rest
    else (k', v') :: mapSet rest k v

/-- Effect of `m.erase(k)` on a `std::map`. -/
def mapErase (m : NgramMap) (k : Nat) : NgramMap :=
  match m with
  | [] => []
  | (k', v') :: rest => if k = k' then rest else (k', v') :: mapErase rest k

/-- Pack `NgramProfile::ORDER = 3` bytes into an `Ngram` key the way
`char2Ngram` reinterprets the zero-padded 4-byte buffer on the target
(little-endian) platform. -/
def pack3 (l : List Nat) : Nat :=
  l.getD 0 0 + l.getD 1 0 * 256 + l.getD 2 0 * 65536

/-- Model of the free function `ngramFromStringRange`: replace newline bytes
(10) by spaces (32) in the 3-byte window, then pack. -/
def ngramFromStringRangeV (w : List Nat) : Nat :=
  pack3 (w.map (fun b => if b = 10 then 32 else b))

/-- Contiguous 3-byte windows of a text (positions 0 .. len-3). -/
def windows3 (t : List Nat) : List (List Nat) :=
  (List.range (t.length - 2)).map (fun i => (t.drop i).take 3)

/-- Model of the free function `ngramsFromStringRange`: empty below order 3,
otherwise the newline-normalized packed key of every window. -/
def ngramsFromStringRangeV (t : List Nat) : List Nat :=
  if t.length < 3 then [] else (windows3 t).map ngramFromStringRangeV

/-- Value model of an `NgramProfile`: base map `m_ngrams`, pending map
`m_updates`, counters `m_n` and `m_size` (the `m_lastNgramUpdates` log is
not observed by any checked property and is omitted). -/
structure NgramProfileV where
  base : NgramMap
  updates : NgramMap
  n : Nat
  size : Nat
deriving Repr, DecidableEq

/-- Intermediate state threaded through the loop of `NgramProfile::update`:
pending map, `m_n`, `m_size`, and the conjunction of all `assert` conditions
evaluated so far, each computed with the C++ operand types (in particular
`updateVal >= 0` and `m_n >= 0` compare unsigned values). -/
structure UpdSt where
  upd : NgramMap
  n : Nat
  size : Nat
  assertsOk : Bool
deriving Repr, DecidableEq

/-- Loop body of `NgramProfile::update` for a single `NgramUpdate`. -/
def updateStep (base : NgramMap) (st : UpdSt) (u : Nat × Int) : UpdSt :=
  let ngramPos := mapFind base u.1
  let upd0 :=
    match ngramPos with
    | some bv => if mapFind st.upd u.1 = none then mapSet st.upd u.1 bv else st.upd
    | none => st.upd
  let cur := (mapFind upd0 u.1).getD 0
  let updateVal := addDelta cur u.2
  let upd1 := mapSet upd0 u.1 updateVal
  let size' :=
    if ngramPos = none ∧ updateVal ≠ 0 then st.size + 1
    else if ngramPos ≠ none ∧ updateVal = 0 then st.size - 1
    else st.size
  let stepOk :=
    decide (updateVal ≥ 0) &&
    (if ngramPos ≠ none ∧ updateVal = 0 then decide (st.size > 0) else true)
  { upd := upd1
    n := addDelta st.n u.2
    size := size'
    assertsOk := st.assertsOk && stepOk }

/-- Model of `NgramProfile::apply`: fold the pending map into a fresh copy of
the base map (entries pending at 0 are erased), then clear the pending map. -/
def applyV (p : NgramProfileV) : NgramProfileV :=
  { p with
    base := p.updates.foldl
      (fun m kv => if kv.2 = 0 then mapErase m kv.1 else mapSet m kv.1 kv.2) p.base
    updates := [] }

/-- Model of `NgramProfile::update` without the trailing asserts/threshold:
fold the loop body over the updates vector. -/
def updateCore (p : NgramProfileV) (us : List (Nat × Int)) : UpdSt :=
  us.foldl (updateStep p.base) { upd := p.updates, n := p.n, size := p.size, assertsOk := true }

/-- Model of `NgramProfile::update`: run the loop, check the trailing asserts
(`m_n >= 0` and `m_size >= 0`, both on unsigned operands), and invoke
`apply` when the pending map holds more than 150 entries. -/
def updateV (p : NgramProfileV) (us : List (Nat × Int)) : NgramProfileV :=
  let st := updateCore p us
  let p' : NgramProfileV := { base := p.base, updates := st.upd, n := st.n, size := st.size }
  if st.upd.length > 150 then applyV p' else p'

/-- Conjunction of every `assert` condition evaluated during a call of
`NgramProfile::update`, with the C++ (unsigned) operand semantics. -/
def updateAssertsOk (p : NgramProfileV) (us : List (Nat × Int)) : Bool :=
  let st := updateCore p us
  st.assertsOk && decide (st.n ≥ 0) && decide (st.size ≥ 0)

/-- Model of `NgramProfile::freq`: pending value if present, else base value,
else zero. -/
def freqV (p : NgramProfileV) (k : Nat) : Nat :=
  match mapFind p.updates k with
  | some v => v
  | none => (mapFind p.base k).getD 0

/-- Model of `NgramProfile::updateFromStringRange`: emit a −1 update for every
n-gram of the old window and a +1 update for every n-gram of the new window
(both via `ngramsFromStringRange`), then call `update`. -/
def updateFromStringRangeV (p : NgramProfileV) (oldW newW : List Nat) : NgramProfileV :=
  updateV p
    ((ngramsFromStringRangeV oldW).map (fun g => (g, (-1 : Int))) ++
     (ngramsFromStringRangeV newW).map (fun g => (g, (1 : Int))))

/-- Model of the n-gram generation loop of `NgramProfile::generateFromString`
on the (already normalized) text: each 3-byte window is packed verbatim by
`char2Ngram` — the loop copies the window into the buffer without the newline
replacement that `ngramFromStringRange` performs — and counted. Returns
`none` for the `ORDER > text.size()` failure path. -/
def generateFromStringV (t : List Nat) : Option NgramProfileV :=
  if 3 > t.length then none
  else
    let base := (windows3 t).foldl
      (fun m w => mapSet m (pack3 w) ((mapFind m (pack3 w)).getD 0 + 1)) []
    some { base := base, updates := [], n := (windows3 t).length, size := base.length }

/-- Model of `NgramProfile::clone`: copy the counters and the pending map and
share the base map (the sharing is made explicit in the store-based model
further below). -/
def cloneV (p : NgramProfileV) : NgramProfileV := p

/-! ### The merge iterator

`NgramProfile::Iterator` walks `m_ngrams` and `m_updates` in parallel.
`sentinel` models `std::numeric_limits<Nat>::max()`. -/

/-- Sentinel key used by `Iterator::operator++` for exhausted maps. -/
def sentinel : Nat := 2 ^ 32 - 1

/-- Current key of a map cursor, `sentinel` when exhausted. -/
def curKey (l : NgramMap) : Nat :=
  match l with
  | [] => sentinel
  | (k, _) :: _ => k

/-- One advancement round of `Iterator::operator++` (the do-while body):
advance the base cursor when its key is not larger (or the pending cursor is
exhausted), then advance the pending cursor when its key is not larger (or
the base cursor is, by now, exhausted). -/
def iterStep (bs us : NgramMap) : NgramMap × NgramMap :=
  let nKey := curKey bs
  let uKey := curKey us
  let bs' := if bs ≠ [] ∧ (nKey ≤ uKey ∨ us = []) then bs.tail else bs
  let us' := if us ≠ [] ∧ (uKey ≤ nKey ∨ bs' = []) then us.tail else us
  (bs', us')

/-- Condition of the do-while loop in `Iterator::operator++`: both cursors
live, equal keys, and the pending value is zero. -/
def iterSkip (bs us : NgramMap) : Prop :=
  bs ≠ [] ∧ us ≠ [] ∧ curKey us = curKey bs ∧ (us.headI).2 = 0

instance (bs us : NgramMap) : Decidable (iterSkip bs us) := by
  unfold iterSkip; infer_instance

theorem iterStep_length (bs us : NgramMap) (h : ¬(bs = [] ∧ us = [])) :
    (iterStep bs us).1.length + (iterStep bs us).2.length < bs.length + us.length := by
  rcases bs with _ | ⟨⟨bk, bv⟩, bs⟩ <;> rcases us with _ | ⟨⟨uk, uv⟩, us⟩
  · exact absurd ⟨rfl, rfl⟩ h
  · simp only [iterStep, curKey]
    split <;> rename_i h1 <;> simp_all <;> omega
  · simp only [iterStep, curKey]
    split <;> rename_i h1
    · split <;> simp <;> omega
    · simp at h1
  · simp only [iterStep, curKey]
    split <;> rename_i hA <;> split <;> rename_i hB <;> simp_all <;>
      first
      | omega
      | exact absurd hB (lt_asymm hA)

/-- The do-while skip loop of `Iterator::operator++`: check the loop
condition, advance, repeat. The fuel argument only bounds the recursion;
`iterStep` shortens the cursors on every skip, so any fuel of at least the
combined cursor length is sufficient and the wrapper below supplies it. -/
def iterSkipLoopF : Nat → NgramMap → NgramMap → NgramMap × NgramMap
  | 0, bs, us => (bs, us)
  | fuel + 1, bs, us =>
    if iterSkip bs us then iterSkipLoopF fuel (iterStep bs us).1 (iterStep bs us).2
    else (bs, us)

/-- Full `Iterator::operator++`: one advancement round followed by the skip
loop. -/
def iterInc (bs us : NgramMap) : NgramMap × NgramMap :=
  iterSkipLoopF (bs.length + us.length) (iterStep bs us).1 (iterStep bs us).2

/-- Model of `Iterator::operator*`: the pending entry when its cursor is live
and its key is not larger (or the base cursor is exhausted), else the base
entry. -/
def iterDeref (bs us : NgramMap) : Nat × Nat :=
  if us ≠ [] ∧ (curKey us ≤ curKey bs ∨ bs = []) then us.headI else bs.headI

theorem iterSkipLoopF_length (fuel : Nat) (bs us : NgramMap) :
    (iterSkipLoopF fuel bs us).1.length + (iterSkipLoopF fuel bs us).2.length ≤
      bs.length + us.length := by
  induction fuel generalizing bs us with
  | zero => simp [iterSkipLoopF]
  | succ fuel ih =>
    simp only [iterSkipLoopF]
    split
    · rename_i h
      have h1 := iterStep_length bs us (fun hc => h.1 hc.1)
      have h2 := ih (iterStep bs us).1 (iterStep bs us).2
      omega
    · simp

theorem iterInc_length (bs us : NgramMap) (h : ¬(bs = [] ∧ us = [])) :
    (iterInc bs us).1.length + (iterInc bs us).2.length < bs.length + us.length := by
  unfold iterInc
  have h1 := iterStep_length bs us h
  have h2 := iterSkipLoopF_length (bs.length + us.length) (iterStep bs us).1 (iterStep bs us).2
  omega

/-- Iteration loop with explicit fuel (the wrapper below supplies a
sufficient amount, see `iterInc_length`). -/
def iterListF : Nat → NgramMap → NgramMap → List (Nat × Nat)
  | 0, _, _ => []
  | fuel + 1, bs, us =>
    if bs = [] ∧ us = [] then []
    else iterDeref bs us :: iterListF fuel (iterInc bs us).1 (iterInc bs us).2

/-- Sequence of `(ngram, count)` pairs produced by iterating from a cursor
pair until both cursors reach their end (the `begin()`/`end()` loop). -/
def iterList (bs us : NgramMap) : List (Nat × Nat) :=
  iterListF (bs.length + us.length) bs us

/-- Fuel irrelevance: any fuel of at least the combined cursor length
produces the same iteration. -/
theorem iterListF_fuel (fuel1 fuel2 : Nat) (bs us : NgramMap)
    (h1 : bs.length + us.length ≤ fuel1) (h2 : bs.length + us.length ≤ fuel2) :
    iterListF fuel1 bs us = iterListF fuel2 bs us := by
  induction fuel1 generalizing fuel2 bs us with
  | zero =>
    have hbs : bs = [] := by
      cases bs <;> simp_all
    have hus : us = [] := by
      cases us <;> simp_all
    subst hbs; subst hus
    cases fuel2 <;> simp [iterListF]
  | succ fuel1 ih =>
    cases fuel2 with
    | zero =>
      have hbs : bs = [] := by cases bs <;> simp_all
      have hus : us = [] := by cases us <;> simp_all
      subst hbs; subst hus
      simp [iterListF]
    | succ fuel2 =>
      simp only [iterListF]
      split
      · rfl
      · rename_i h
        have hlt := iterInc_length bs us h
        rw [ih fuel2 (iterInc bs us).1 (iterInc bs us).2 (by omega) (by omega)]

/-- Iteration of a profile: `begin()` starts at both map heads. -/
def iterOf (p : NgramProfileV) : List (Nat × Nat) :=
  iterList p.base p.updates

/-! ### Association-map lemmas -/

theorem mapFind_eq_none_iff (m : NgramMap) (k : Nat) :
    mapFind m k = none ↔ k ∉ m.map Prod.fst := by
  induction m with
  | nil => simp [mapFind]
  | cons kv rest ih =>
    obtain ⟨k', v⟩ := kv
    by_cases hk : k = k' <;> simp [mapFind, hk, ih]

theorem mem_of_mapFind (m : NgramMap) (k : Nat) (v : Nat)
    (h : mapFind m k = some v) : (k, v) ∈ m := by
  induction m with
  | nil => simp [mapFind] at h
  | cons kv rest ih =>
    obtain ⟨k', v'⟩ := kv
    by_cases hk : k = k'
    · subst hk
      simp [mapFind] at h
      simp [h]
    · simp [mapFind, hk] at h
      exact List.mem_cons_of_mem _ (ih h)

theorem mapSorted_cons (kv : Nat × Nat) (m : NgramMap) (h : MapSorted (kv :: m)) :
    MapSorted m ∧ ∀ kv' ∈ m, kv.1 < kv'.1 := by
  unfold MapSorted at *
  rw [List.pairwise_cons] at h
  exact ⟨h.2, h.1⟩

theorem mapFind_eq_none_of_sorted_head (kv : Nat × Nat) (m : NgramMap)
    (h : MapSorted (kv :: m)) : mapFind m kv.1 = none := by
  rw [mapFind_eq_none_iff]
  intro hmem
  obtain ⟨kv', hk', hkeq⟩ := List.mem_map.mp hmem
  have h2 : kv.1 < kv'.1 := (mapSorted_cons kv m h).2 _ hk'
  rw [hkeq] at h2
  exact lt_irrefl _ h2

theorem mapFind_of_mem_sorted (m : NgramMap) (kv : Nat × Nat)
    (hs : MapSorted m) (h : kv ∈ m) : mapFind m kv.1 = some kv.2 := by
  induction m with
  | nil => simp at h
  | cons kv' rest ih =>
    rcases List.mem_cons.mp h with heq | hmem
    · subst heq
      simp [mapFind]
    · have hlt : kv'.1 < kv.1 := (mapSorted_cons kv' rest hs).2 _ hmem
      have hne : kv.1 ≠ kv'.1 := ne_of_gt hlt
      simp [mapFind, hne]
      exact ih (mapSorted_cons kv' rest hs).1 hmem

theorem mapFind_mapSet_self (m : NgramMap) (k : Nat) (v : Nat) :
    mapFind (mapSet m k v) k = some v := by
  induction m with
  | nil => simp [mapSet, mapFind]
  | cons kv rest ih =>
    obtain ⟨k', v'⟩ := kv
    by_cases h1 : k < k'
    · simp [mapSet, h1, mapFind]
    · by_cases h2 : k = k'
      · simp [mapSet, h1, h2, mapFind]
      · simp [mapSet, h1, h2, mapFind, ih]

theorem mapFind_mapSet_ne (m : NgramMap) (k k2 : Nat) (v : Nat) (h : k2 ≠ k) :
    mapFind (mapSet m k v) k2 = mapFind m k2 := by
  induction m with
  | nil => simp [mapSet, mapFind, h]
  | cons kv rest ih =>
    obtain ⟨k', v'⟩ := kv
    by_cases h1 : k < k'
    · simp [mapSet, h1, mapFind, h]
    · by_cases h2 : k = k'
      · subst h2
        simp [mapSet, h1, mapFind, h]
      · by_cases h3 : k2 = k'
        · simp [mapSet, h1, h2, mapFind, h3]
        · simp [mapSet, h1, h2, mapFind, h3, ih]

theorem mapSet_mem_cases (m : NgramMap) (k : Nat) (v : Nat) :
    ∀ kv ∈ mapSet m k v, kv = (k, v) ∨ kv ∈ m := by
  induction m with
  | nil => simp [mapSet]
  | cons hd rest ih =>
    obtain ⟨k', v'⟩ := hd
    intro kv hkv
    by_cases h1 : k < k'
    · simp only [mapSet, if_pos h1, List.mem_cons] at hkv
      rcases hkv with h | h | h
      · exact Or.inl h
      · exact Or.inr (by simp [h])
      · exact Or.inr (List.mem_cons_of_mem _ h)
    · by_cases h2 : k = k'
      · simp only [mapSet, if_neg h1, if_pos h2, List.mem_cons] at hkv
        rcases hkv with h | h
        · exact Or.inl h
        · exact Or.inr (List.mem_cons_of_mem _ h)
      · simp only [mapSet, if_neg h1, if_neg h2, List.mem_cons] at hkv
        rcases hkv with h | h
        · exact Or.inr (by simp [h])
        · rcases ih kv h with h' | h'
          · exact Or.inl h'
          · exact Or.inr (List.mem_cons_of_mem _ h')

theorem mapSet_sorted (m : NgramMap) (k : Nat) (v : Nat) (hs : MapSorted m) :
    MapSorted (mapSet m k v) := by
  induction m with
  | nil => simp [mapSet, MapSorted]
  | cons hd rest ih =>
    obtain ⟨k', v'⟩ := hd
    obtain ⟨hrest, hlt⟩ := mapSorted_cons _ _ hs
    by_cases h1 : k < k'
    · simp only [mapSet, if_pos h1]
      unfold MapSorted
      rw [List.pairwise_cons]
      refine ⟨?_, hs⟩
      intro kv' hkv'
      rcases List.mem_cons.mp hkv' with heq | hmem
      · rw [heq]; exact h1
      · exact lt_trans h1 (hlt _ hmem)
    · by_cases h2 : k = k'
      · simp only [mapSet, if_neg h1, if_pos h2]
        unfold MapSorted
        rw [List.pairwise_cons]
        subst h2
        exact ⟨fun kv' h => hlt kv' h, hrest⟩
      · simp only [mapSet, if_neg h1, if_neg h2]
        unfold MapSorted
        rw [List.pairwise_cons]
        refine ⟨?_, ih hrest⟩
        intro kv' hkv'
        rcases mapSet_mem_cases rest k v kv' hkv' with h | h
        · rw [h]
          exact lt_of_le_of_ne (le_of_not_lt h1) (Ne.symm h2)
        · exact hlt _ h

theorem mapErase_subset (m : NgramMap) (k : Nat) :
    ∀ kv ∈ mapErase m k, kv ∈ m := by
  induction m with
  | nil => simp [mapErase]
  | cons hd rest ih =>
    obtain ⟨k', v'⟩ := hd
    intro kv hkv
    by_cases h1 : k = k'
    · simp only [mapErase, if_pos h1] at hkv
      exact List.mem_cons_of_mem _ hkv
    · simp only [mapErase, if_neg h1, List.mem_cons] at hkv
      rcases hkv with h | h
      · simp [h]
      · exact List.mem_cons_of_mem _ (ih kv h)

theorem mapErase_sorted (m : NgramMap) (k : Nat) (hs : MapSorted m) :
    MapSorted (mapErase m k) := by
  induction m with
  | nil => simp [mapErase, MapSorted]
  | cons hd rest ih =>
    obtain ⟨k', v'⟩ := hd
    obtain ⟨hrest, hlt⟩ := mapSorted_cons _ _ hs
    by_cases h1 : k = k'
    · simp only [mapErase, if_pos h1]
      exact hrest
    · simp only [mapErase, if_neg h1]
      unfold MapSorted
      rw [List.pairwise_cons]
      refine ⟨?_, ih hrest⟩
      intro kv' hkv'
      exact hlt _ (mapErase_subset rest k kv' hkv')

theorem mapFind_mapErase_self (m : NgramMap) (k : Nat) (hs : MapSorted m) :
    mapFind (mapErase m k) k = none := by
  induction m with
  | nil => simp [mapErase, mapFind]
  | cons kv rest ih =>
    obtain ⟨k', v'⟩ := kv
    obtain ⟨hrest, hlt⟩ := mapSorted_cons _ _ hs
    by_cases h1 : k = k'
    · simp only [mapErase, if_pos h1]
      subst h1
      exact mapFind_eq_none_of_sorted_head _ _ hs
    · simp only [mapErase, if_neg h1]
      simp [mapFind, h1]
      exact ih hrest

theorem mapFind_mapErase_ne (m : NgramMap) (k k2 : Nat) (h : k2 ≠ k) :
    mapFind (mapErase m k) k2 = mapFind m k2 := by
  induction m with
  | nil => simp [mapErase]
  | cons kv rest ih =>
    obtain ⟨k', v'⟩ := kv
    by_cases h1 : k = k'
    · subst h1
      simp [mapErase, mapFind, h]
    · by_cases h2 : k2 = k'
      · simp [mapErase, h1, mapFind, h2]
      · simp [mapErase, h1, mapFind, h2, ih]

/-- Lookup after overlaying a key-distinct list of entries onto a base map
with repeated insert-or-assign. -/
theorem mapFind_foldl_overlay (us : NgramMap) (base : NgramMap) (k : Nat)
    (hsu : MapSorted us) :
    mapFind (us.foldl (fun m kv => mapSet m kv.1 kv.2) base) k =
      match mapFind us k with
      | some v => some v
      | none => mapFind base k := by
  induction us generalizing base with
  | nil => simp [mapFind]
  | cons hd rest ih =>
    obtain ⟨k', v'⟩ := hd
    simp only [List.foldl_cons]
    rw [ih (mapSet base k' v') (mapSorted_cons _ _ hsu).1]
    by_cases hk : k = k'
    · subst hk
      have hnone : mapFind rest k = none := mapFind_eq_none_of_sorted_head _ _ hsu
      rw [hnone]
      simp [mapFind, mapFind_mapSet_self]
    · simp only [mapFind, if_neg hk]
      cases mapFind rest k <;> simp [mapFind_mapSet_ne base k' k v' hk]

/-- Two key-sorted association lists with identical lookups are equal. -/
theorem mapSorted_ext (m1 m2 : NgramMap) (h1 : MapSorted m1) (h2 : MapSorted m2)
    (h : ∀ k, mapFind m1 k = mapFind m2 k) : m1 = m2 := by
  induction m1 generalizing m2 with
  | nil =>
    cases m2 with
    | nil => rfl
    | cons kv rest =>
      have := h kv.1
      simp [mapFind] at this
  | cons kv1 r1 ih =>
    cases m2 with
    | nil =>
      have := h kv1.1
      simp [mapFind] at this
    | cons kv2 r2 =>
      obtain ⟨k1, v1⟩ := kv1
      obtain ⟨k2, v2⟩ := kv2
      have hf1 : mapFind ((k1, v1) :: r1) k1 = some v1 := by simp [mapFind]
      have hf2 : mapFind ((k2, v2) :: r2) k2 = some v2 := by simp [mapFind]
      have hm1 : (k1, v1) ∈ (k2, v2) :: r2 := mem_of_mapFind _ _ _ ((h k1).symm.trans hf1)
      have hm2 : (k2, v2) ∈ (k1, v1) :: r1 := mem_of_mapFind _ _ _ ((h k2).trans hf2)
      have hk12 : k2 ≤ k1 := by
        rcases List.mem_cons.mp hm1 with heq | hmem
        · have : k1 = k2 := congrArg Prod.fst heq
          omega
        · have hl : ((k2, v2) : Nat × Nat).1 < ((k1, v1) : Nat × Nat).1 :=
            (mapSorted_cons _ _ h2).2 _ hmem
          simp at hl
          omega
      have hk21 : k1 ≤ k2 := by
        rcases List.mem_cons.mp hm2 with heq | hmem
        · have : k2 = k1 := congrArg Prod.fst heq
          omega
        · have hl : ((k1, v1) : Nat × Nat).1 < ((k2, v2) : Nat × Nat).1 :=
            (mapSorted_cons _ _ h1).2 _ hmem
          simp at hl
          omega
      have hkeq : k1 = k2 := le_antisymm hk21 hk12
      subst hkeq
      have hveq : v1 = v2 := by
        have hx : mapFind ((k1, v2) :: r2) k1 = some v1 := (h k1).symm.trans hf1
        rw [hf2] at hx
        exact (Option.some_inj.mp hx).symm
      subst hveq
      have htail : ∀ k, mapFind r1 k = mapFind r2 k := by
        intro k
        by_cases hk : k = k1
        · subst hk
          rw [mapFind_eq_none_of_sorted_head _ _ h1, mapFind_eq_none_of_sorted_head _ _ h2]
        · have := h k
          simpa [mapFind, hk] using this
      rw [ih r2 (mapSorted_cons _ _ h1).1 (mapSorted_cons _ _ h2).1 htail]

/-! ### Claim C1: reference semantics for update / apply / iteration -/

/-- Spec reference: a single freshly-constructed plain `std::map` initialized
with the profile's original contents (base entries overlaid with the pending
entries). -/
def mergedOf (p : NgramProfileV) : NgramMap :=
  p.updates.foldl (fun m kv => mapSet m kv.1 kv.2) p.base

/-- Spec reference: the effect of `m[k] += d` on a plain `std::map` holding
`size_t` values (absent keys are value-initialized to 0). -/
def refStep (m : NgramMap) (u : Nat × Int) : NgramMap :=
  mapSet m u.1 (addDelta ((mapFind m u.1).getD 0) u.2)

/-- Spec reference: apply a delta sequence entry-by-entry to a plain map. -/
def refApply (m : NgramMap) (us : List (Nat × Int)) : NgramMap :=
  us.foldl refStep m

/-- A sequence of `update(deltas)` calls on a profile. -/
def updateSeqV (p : NgramProfileV) (uss : List (List (Nat × Int))) : NgramProfileV :=
  uss.foldl updateV p

/-- Well-formedness of a profile: both maps key-sorted and no zero-valued
base entries (as produced by `generateFromString`, `load` and `apply`). -/
structure ProfInv (p : NgramProfileV) : Prop where
  sb : MapSorted p.base
  su : MapSorted p.updates
  nz : ∀ kv ∈ p.base, kv.2 ≠ 0

theorem foldl_mapSet_sorted (us : NgramMap) (base : NgramMap) (hsb : MapSorted base) :
    MapSorted (us.foldl (fun m kv => mapSet m kv.1 kv.2) base) := by
  induction us generalizing base with
  | nil => exact hsb
  | cons hd rest ih => exact ih _ (mapSet_sorted _ _ _ hsb)

theorem mergedOf_sorted (p : NgramProfileV) (hsb : MapSorted p.base) :
    MapSorted (mergedOf p) :=
  foldl_mapSet_sorted p.updates p.base hsb

theorem freqV_mergedOf (p : NgramProfileV) (hsu : MapSorted p.updates) (k : Nat) :
    freqV p k = (mapFind (mergedOf p) k).getD 0 := by
  unfold freqV mergedOf
  rw [mapFind_foldl_overlay _ _ _ hsu]
  cases mapFind p.updates k <;> simp

theorem refStep_sorted (m : NgramMap) (u : Nat × Int) (hs : MapSorted m) :
    MapSorted (refStep m u) :=
  mapSet_sorted _ _ _ hs

theorem refApply_sorted (m : NgramMap) (us : List (Nat × Int)) (hs : MapSorted m) :
    MapSorted (refApply m us) := by
  induction us generalizing m with
  | nil => exact hs
  | cons hd rest ih => exact ih _ (refStep_sorted m hd hs)

theorem mapFind_refStep (m : NgramMap) (u : Nat × Int) (k : Nat) :
    (mapFind (refStep m u) k).getD 0 =
      if k = u.1 then addDelta ((mapFind m u.1).getD 0) u.2 else (mapFind m k).getD 0 := by
  unfold refStep
  by_cases hk : k = u.1
  · subst hk
    rw [mapFind_mapSet_self]
    simp
  · rw [mapFind_mapSet_ne _ _ _ _ hk, if_neg hk]

/-- Lookup after folding the pending entries into a base map the way
`NgramProfile::apply` does. -/
theorem mapFind_applyFold (us : NgramMap) (base : NgramMap) (k : Nat)
    (hsu : MapSorted us) (hsb : MapSorted base) :
    mapFind (us.foldl
      (fun m kv => if kv.2 = 0 then mapErase m kv.1 else mapSet m kv.1 kv.2) base) k =
      match mapFind us k with
      | some v => if v = 0 then none else some v
      | none => mapFind base k := by
  induction us generalizing base with
  | nil => simp [mapFind]
  | cons hd rest ih =>
    obtain ⟨k', v'⟩ := hd
    simp only [List.foldl_cons]
    have hsb' : MapSorted (if v' = 0 then mapErase base k' else mapSet base k' v') := by
      split
      · exact mapErase_sorted _ _ hsb
      · exact mapSet_sorted _ _ _ hsb
    rw [ih _ (mapSorted_cons _ _ hsu).1 hsb']
    by_cases hk : k = k'
    · subst hk
      have hnone : mapFind rest k = none := mapFind_eq_none_of_sorted_head _ _ hsu
      rw [hnone]
      simp only [mapFind, if_pos rfl]
      by_cases hv : v' = 0
      · simp [hv, mapFind_mapErase_self _ _ hsb]
      · simp [hv, mapFind_mapSet_self]
    · simp only [mapFind, if_neg hk]
      cases mapFind rest k with
      | some v => simp
      | none =>
        simp only
        by_cases hv : v' = 0
        · simp [hv, mapFind_mapErase_ne _ _ _ hk]
        · simp [hv, mapFind_mapSet_ne _ _ _ _ hk]

/-- Profile view of an intermediate update-loop state. -/
def pstate (base : NgramMap) (st : UpdSt) : NgramProfileV :=
  { base := base, updates := st.upd, n := st.n, size := st.size }

theorem updateStep_sorted (base : NgramMap) (st : UpdSt) (u : Nat × Int)
    (hsu : MapSorted st.upd) : MapSorted (updateStep base st u).upd := by
  unfold updateStep
  simp only
  apply mapSet_sorted
  cases mapFind base u.1 with
  | some bv =>
    by_cases h : mapFind st.upd u.1 = none
    · simp only [if_pos h]
      exact mapSet_sorted _ _ _ hsu
    · simp only [if_neg h]
      exact hsu
  | none => exact hsu

/-- One iteration of the update loop shifts the effective count of the
updated n-gram by the delta (with `size_t` wrap-around) and keeps every
other effective count unchanged. -/
theorem updateStep_freq (base : NgramMap) (st : UpdSt) (u : Nat × Int) (k : Nat) :
    freqV (pstate base (updateStep base st u)) k =
      if k = u.1 then addDelta (freqV (pstate base st) u.1) u.2
      else freqV (pstate base st) k := by
  unfold updateStep pstate freqV
  simp only
  by_cases hk : k = u.1
  · subst hk
    rw [if_pos rfl, mapFind_mapSet_self]
    simp only
    cases hb : mapFind base u.1 with
    | some bv =>
      cases hu : mapFind st.upd u.1 with
      | some v => simp [hb, hu]
      | none => simp [hb, hu, mapFind_mapSet_self]
    | none =>
      cases hu : mapFind st.upd u.1 with
      | some v => simp [hb, hu]
      | none => simp [hb, hu]
  · rw [if_neg hk, mapFind_mapSet_ne _ _ _ _ hk]
    cases hb : mapFind base u.1 with
    | some bv =>
      by_cases hu : mapFind st.upd u.1 = none
      · simp [hb, hu, mapFind_mapSet_ne _ _ _ _ hk]
      · simp [hb, hu]
    | none => simp [hb]

/-- Through the whole update loop, the effective counts of the profile and
the lookups of the reference plain map evolve identically. -/
theorem updateCore_freq (base : NgramMap) (us : List (Nat × Int)) (st : UpdSt)
    (ref : NgramMap) (hsu : MapSorted st.upd) (hsr : MapSorted ref)
    (hpt : ∀ k, freqV (pstate base st) k = (mapFind ref k).getD 0) :
    MapSorted (us.foldl (updateStep base) st).upd ∧
      ∀ k, freqV (pstate base (us.foldl (updateStep base) st)) k =
        (mapFind (refApply ref us) k).getD 0 := by
  induction us generalizing st ref with
  | nil => exact ⟨hsu, hpt⟩
  | cons u rest ih =>
    simp only [List.foldl_cons]
    apply ih (updateStep base st u) (refStep ref u)
      (updateStep_sorted base st u hsu) (refStep_sorted ref u hsr)
    intro k
    rw [updateStep_freq base st u k, mapFind_refStep ref u k]
    by_cases hk : k = u.1
    · rw [if_pos hk, if_pos hk, hpt u.1]
    · rw [if_neg hk, if_neg hk, hpt k]

theorem applyV_base_sorted (p : NgramProfileV) (hsb : MapSorted p.base) :
    MapSorted (applyV p).base := by
  unfold applyV
  simp only
  generalize p.base = base at *
  induction p.updates generalizing base with
  | nil => exact hsb
  | cons hd rest ih =>
    simp only [List.foldl_cons]
    apply ih
    split
    · exact mapErase_sorted _ _ hsb
    · exact mapSet_sorted _ _ _ hsb

/-- Applying the pending map preserves every effective count. -/
theorem applyV_freq (p : NgramProfileV) (hsb : MapSorted p.base)
    (hsu : MapSorted p.updates) (k : Nat) : freqV (applyV p) k = freqV p k := by
  unfold applyV freqV
  simp only [mapFind]
  rw [mapFind_applyFold _ _ _ hsu hsb]
  cases hu : mapFind p.updates k with
  | some v =>
    by_cases hv : v = 0 <;> simp [hv]
  | none => simp

/-- Applying the pending map leaves no zero-valued base entries when the old
base map had none. -/
theorem applyV_nz (p : NgramProfileV) (hinv : ProfInv p) :
    ∀ kv ∈ (applyV p).base, kv.2 ≠ 0 := by
  intro kv hkv
  have hfind : mapFind (applyV p).base kv.1 = some kv.2 :=
    mapFind_of_mem_sorted _ _ (applyV_base_sorted p hinv.sb) hkv
  unfold applyV at hfind
  simp only at hfind
  rw [mapFind_applyFold _ _ _ hinv.su hinv.sb] at hfind
  cases hu : mapFind p.updates kv.1 with
  | some v =>
    rw [hu] at hfind
    by_cases hv : v = 0
    · simp [hv] at hfind
    · simp [hv] at hfind
      omega
  | none =>
    rw [hu] at hfind
    simp only at hfind
    exact hinv.nz _ (mem_of_mapFind _ _ _ hfind)

theorem applyV_inv (p : NgramProfileV) (hinv : ProfInv p) : ProfInv (applyV p) :=
  ⟨applyV_base_sorted p hinv.sb, List.Pairwise.nil, applyV_nz p hinv⟩

/-- A single `update(deltas)` call preserves well-formedness and tracks the
reference plain map pointwise (including the internal `apply` that fires
when the pending map exceeds 150 entries). -/
theorem updateV_freq (p : NgramProfileV) (us : List (Nat × Int)) (ref : NgramMap)
    (hinv : ProfInv p) (hsr : MapSorted ref)
    (hpt : ∀ k, freqV p k = (mapFind ref k).getD 0) :
    ProfInv (updateV p us) ∧ MapSorted (refApply ref us) ∧
      ∀ k, freqV (updateV p us) k = (mapFind (refApply ref us) k).getD 0 := by
  have hst : { upd := p.updates, n := p.n, size := p.size, assertsOk := true : UpdSt } =
      { upd := p.updates, n := p.n, size := p.size, assertsOk := true : UpdSt } := rfl
  have hps : pstate p.base { upd := p.updates, n := p.n, size := p.size, assertsOk := true } = p := by
    unfold pstate
    rfl
  have hcore := updateCore_freq p.base us
    { upd := p.updates, n := p.n, size := p.size, assertsOk := true } ref hinv.su hsr
    (by rw [hps]; exact hpt)
  obtain ⟨hsorted, hfreq⟩ := hcore
  have hsra : MapSorted (refApply ref us) := refApply_sorted ref us hsr
  unfold updateV updateCore
  simp only
  split
  · rename_i hlen
    set st := us.foldl (updateStep p.base)
      { upd := p.updates, n := p.n, size := p.size, assertsOk := true } with hstdef
    have hinv' : ProfInv (pstate p.base st) := ⟨hinv.sb, hsorted, hinv.nz⟩
    have happ : pstate p.base st = { base := p.base, updates := st.upd, n := st.n, size := st.size } := rfl
    refine ⟨?_, hsra, ?_⟩
    · rw [← happ]
      exact applyV_inv _ hinv'
    · intro k
      rw [← happ, applyV_freq _ hinv'.sb hinv'.su, hfreq k]
  · rename_i hlen
    set st := us.foldl (updateStep p.base)
      { upd := p.updates, n := p.n, size := p.size, assertsOk := true } with hstdef
    exact ⟨⟨hinv.sb, hsorted, hinv.nz⟩, hsra, hfreq⟩

/-- A whole sequence of `update(deltas)` calls tracks the reference plain map
fed with the concatenated deltas. -/
theorem updateSeqV_freq (p : NgramProfileV) (uss : List (List (Nat × Int)))
    (ref : NgramMap) (hinv : ProfInv p) (hsr : MapSorted ref)
    (hpt : ∀ k, freqV p k = (mapFind ref k).getD 0) :
    ProfInv (updateSeqV p uss) ∧ MapSorted (refApply ref uss.join) ∧
      ∀ k, freqV (updateSeqV p uss) k = (mapFind (refApply ref uss.join) k).getD 0 := by
  induction uss generalizing p ref with
  | nil => exact ⟨hinv, hsr, hpt⟩
  | cons us rest ih =>
    obtain ⟨hinv1, hsr1, hpt1⟩ := updateV_freq p us ref hinv hsr hpt
    have hmain := ih (updateV p us) (refApply ref us) hinv1 hsr1 hpt1
    simpa [updateSeqV, refApply, List.foldl_append] using hmain

/-- Iterating a profile whose pending map is empty yields exactly the base
map entries in order. -/
theorem iterListF_nil (fuel : Nat) (bs : NgramMap) (h : bs.length ≤ fuel) :
    iterListF fuel bs [] = bs := by
  induction fuel generalizing bs with
  | zero =>
    cases bs with
    | nil => simp [iterListF]
    | cons b bs => simp at h
  | succ fuel ih =>
    cases bs with
    | nil => simp [iterListF]
    | cons b bs =>
      simp only [iterListF]
      rw [if_neg (by simp)]
      have hinc : iterInc (b :: bs) [] = (bs, []) := by
        simp [iterInc, iterStep, curKey, iterSkipLoopF, iterSkip]
      rw [hinc]
      simp only
      rw [ih bs (by simp at h; omega)]
      have hderef : iterDeref (b :: bs) [] = b := by
        simp [iterDeref]
      rw [hderef]

theorem iterList_nil_updates (bs : NgramMap) : iterList bs [] = bs := by
  unfold iterList
  exact iterListF_nil _ bs (by simp)

theorem mapFind_filter_nz (m : NgramMap) (k : Nat) (hs : MapSorted m) :
    mapFind (m.filter (fun kv => kv.2 != 0)) k =
      match mapFind m k with
      | some v => if v = 0 then none else some v
      | none => none := by
  induction m with
  | nil => simp [mapFind]
  | cons hd rest ih =>
    obtain ⟨k', v'⟩ := hd
    have hrest := (mapSorted_cons _ _ hs).1
    by_cases hv : v' = 0
    · subst hv
      rw [List.filter_cons]
      simp only [bne_self_eq_false, if_neg Bool.false_ne_true]
      rw [ih hrest]
      by_cases hk : k = k'
      · subst hk
        have hnone : mapFind rest k = none := mapFind_eq_none_of_sorted_head _ _ hs
        rw [hnone]
        simp [mapFind]
      · simp [mapFind, hk]
    · rw [List.filter_cons]
      have hcond : ((k', v').2 != 0) = true := by simpa using hv
      rw [if_pos hcond]
      by_cases hk : k = k'
      · subst hk
        simp [mapFind, hv]
      · simp only [mapFind, if_neg hk]
        exact ih hrest

theorem filter_nz_sorted (m : NgramMap) (hs : MapSorted m) :
    MapSorted (m.filter (fun kv => kv.2 != 0)) := by
  unfold MapSorted at *
  exact List.Pairwise.sublist (List.filter_sublist m) hs

end Obf

namespace Obf

/-- Claim C1 (amended): for every well-formed n-gram profile P (key-sorted
base and pending maps, no zero-valued base entries) and every sequence of
update(deltas) calls, iterating P after a final apply() yields exactly the
same (ngram, count) pairs, in ascending n-gram order with zero-count entries
omitted, as applying the same deltas entry-by-entry to a single
freshly-constructed plain map initialized with P's original contents.
(The original claim's further assertion that the iteration is the same
without the final apply() is refuted by `c1_counterexample`.) -/
theorem c1_apply_iteration_refines_plain_map (p : NgramProfileV)
    (uss : List (List (Nat × Int))) (hinv : ProfInv p) :
    iterOf (applyV (updateSeqV p uss)) =
      (refApply (mergedOf p) uss.join).filter (fun kv => kv.2 != 0) := by
  have h0 : ∀ k, freqV p k = (mapFind (mergedOf p) k).getD 0 :=
    freqV_mergedOf p hinv.su
  obtain ⟨hinvq, hsr, hpt⟩ :=
    updateSeqV_freq p uss (mergedOf p) hinv (mergedOf_sorted p hinv.sb) h0
  have hiter : iterOf (applyV (updateSeqV p uss)) = (applyV (updateSeqV p uss)).base := by
    unfold iterOf applyV
    simp only
    exact iterList_nil_updates _
  rw [hiter]
  apply mapSorted_ext _ _ (applyV_base_sorted _ hinvq.sb) (filter_nz_sorted _ hsr)
  intro k
  have hfreq := hpt k
  unfold applyV
  simp only
  rw [mapFind_applyFold _ _ _ hinvq.su hinvq.sb, mapFind_filter_nz _ _ hsr]
  unfold freqV at hfreq
  cases hu : mapFind (updateSeqV p uss).updates k with
  | some v =>
    rw [hu] at hfreq
    simp only at hfreq
    cases hr : mapFind (refApply (mergedOf p) uss.join) k with
    | some r =>
      rw [hr] at hfreq
      simp only [Option.getD_some] at hfreq
      subst hfreq
      rfl
    | none =>
      rw [hr] at hfreq
      simp only [Option.getD_none] at hfreq
      simp [hfreq]
  | none =>
    rw [hu] at hfreq
    simp only at hfreq
    cases hb : mapFind (updateSeqV p uss).base k with
    | some w =>
      rw [hb] at hfreq
      simp only [Option.getD_some] at hfreq
      have hw : w ≠ 0 := hinvq.nz _ (mem_of_mapFind _ _ _ hb)
      cases hr : mapFind (refApply (mergedOf p) uss.join) k with
      | some r =>
        rw [hr] at hfreq
        simp only [Option.getD_some] at hfreq
        subst hfreq
        simp [hw]
      | none =>
        rw [hr] at hfreq
        simp only [Option.getD_none] at hfreq
        exact absurd hfreq hw
    | none =>
      rw [hb] at hfreq
      simp only [Option.getD_none] at hfreq
      cases hr : mapFind (refApply (mergedOf p) uss.join) k with
      | some r =>
        rw [hr] at hfreq
        simp only [Option.getD_some] at hfreq
        simp [← hfreq]
      | none => rfl

/-- Witness for C1: the profile generated from "abc" (single n-gram key
6513249 = 97 + 98·256 + 99·65536) updated with a −1 delta; after apply() the
iteration is empty, matching the nonzero entries of the reference map. -/
theorem c1_witness :
    iterOf (applyV (updateSeqV ⟨[(6513249, 1)], [], 1, 1⟩ [[(6513249, -1)]])) =
      (refApply (mergedOf ⟨[(6513249, 1)], [], 1, 1⟩) [[(6513249, -1)]].join).filter
        (fun kv => kv.2 != 0) :=
  c1_apply_iteration_refines_plain_map ⟨[(6513249, 1)], [], 1, 1⟩ [[(6513249, -1)]]
    ⟨by decide, by decide, by decide⟩

/-- Counterexample to claim C1 as stated: for the profile generated from
"abc" (base {6513249 ↦ 1}) and the single update (6513249, −1), the
iteration before the final apply() yields the zero-count pair (6513249, 0),
while the iteration after apply() — which equals the nonzero entries of the
reference map — is empty. So the iteration is not the same with and without
the final apply(), and zero-count entries are not omitted. -/
theorem c1_counterexample :
    (generateFromStringV [97, 98, 99]).map
        (fun p => iterOf (updateV p [(6513249, -1)])) = some [(6513249, 0)] ∧
      (generateFromStringV [97, 98, 99]).map
        (fun p => iterOf (applyV (updateV p [(6513249, -1)]))) = some [] := by
  decide

/-- Number of distinct n-grams whose effective count (pending value if
present, else base value) is non-zero. -/
def distinctNonzero (p : NgramProfileV) : Nat :=
  (((p.base ++ p.updates).map Prod.fst).dedup.filter (fun k => freqV p k != 0)).length

/-- Claim C2: evaluation of `generateFromString` at the failing input
"a\n b" (bytes 97, 10, 98). The generation loop packs the window verbatim —
its only n-gram key is `pack3 [97, 10, 98]` with count 1 and `n() = 1` —
whereas the newline-to-space normalization claimed by the spec (and
performed by `ngramFromStringRange`, the function every incremental
`updateFromStringRange` goes through) would pack `pack3 [97, 32, 98]`, a key
whose frequency in the generated profile is 0. The two packing paths of the
program disagree on the same window. -/
theorem c2_generate_packs_newline_verbatim :
    (generateFromStringV [97, 10, 98]).map
        (fun p => (p.n, freqV p (pack3 [97, 10, 98]),
                   freqV p (ngramFromStringRangeV [97, 10, 98]))) =
      some (1, 1, 0) ∧
      ngramFromStringRangeV [97, 10, 98] = pack3 [97, 32, 98] ∧
      pack3 [97, 32, 98] ≠ pack3 [97, 10, 98] := by
  decide

/-- Claim C6: evaluation at the failing input. Starting from the profile of
"abc" (one n-gram, `size() = 1`) and updating the fresh n-gram key 8026488
("xyz") twice with +1 in one call, `size()` becomes 3 — the increment branch
fires on every update whose key is absent from the base map and whose
running pending value is non-zero — while the number of distinct n-grams
with non-zero effective count is 2. -/
theorem c6_size_over_counts :
    (generateFromStringV [97, 98, 99]).map
        (fun p => ((updateV p [(8026488, 1), (8026488, 1)]).size,
                   distinctNonzero (updateV p [(8026488, 1), (8026488, 1)]))) =
      some (3, 2) := by
  decide

/-- Claim C9: evaluation at the failing input. Starting from the profile of
"abc" and updating the absent n-gram key 8026488 with −1, the `size_t`
pending counter silently wraps around to 2^64 − 1 = 18446744073709551615 and
every `assert` inside `update` still holds, because `updateVal >= 0` and
`m_n >= 0` compare unsigned values and are vacuously true. -/
theorem c9_silent_unsigned_wraparound :
    (generateFromStringV [97, 98, 99]).map
        (fun p => (freqV (updateV p [(8026488, -1)]) 8026488,
                   updateAssertsOk p [(8026488, -1)])) =
      some (18446744073709551615, true) := by
  decide

/-! ### ComputeCostH (src/obfuscation/ComputeCostH.cpp)

Doubles are idealized as exact rationals, and `std::sqrt` as a parameter
function: every property proved below holds for an arbitrary square-root
function, in particular for the machine one. -/

/-- Model of the jsd overflow handling in `ComputeCostH::operator()` (lines
49–54): the stderr warning condition `jsd > 1.0`, the `assert(jsd <= 1.0)`
condition, and the value stored into `state.mutableMetaData()->jsd` — which
is the raw `jsd`; no clamping is performed. -/
def processJsd (jsd : ℚ) : Bool × Bool × ℚ :=
  (decide (jsd > 1), decide (jsd ≤ 1), jsd)

/-- Model of the heuristic computation in `ComputeCostH::operator()` (lines
56–70): resolve `originalJsd` from the context metadata (initializing it to
`max(0, jsd − 1e-10)` on the first evaluation), then return
`h = max(0, goal − d) · (g / max(1e-6, d − d0))` with `d = sqrt(2·jsd)` and
`d0 = sqrt(2·originalJsd)`, together with the metadata after the call. -/
def computeCostH (sq : ℚ → ℚ) (g jsd goal : ℚ) (origOpt : Option ℚ) : ℚ × Option ℚ :=
  let origJsd : ℚ :=
    match origOpt with
    | none => max 0 (jsd - 1 / 10 ^ 10)
    | some o => o
  let jsDistance := sq (2 * jsd)
  let p := g / max (1 / 10 ^ 6) (jsDistance - sq (2 * origJsd))
  let r := max 0 (goal - jsDistance)
  (r * p, some origJsd)

/-- Claim C5: on every heuristic evaluation the returned value is
`h = max(0, goal − √(2·jsd)) · g / max(1e-6, √(2·jsd) − √(2·originalJsd))`;
on the first evaluation only, `originalJsd = max(0, jsd − 1e-10)` is stored
into the shared context metadata; consequently `h = 0` whenever `g = 0` and
whenever `√(2·jsd) ≥ goal`. -/
theorem c5_heuristic_formula (sq : ℚ → ℚ) (g jsd goal : ℚ) (origOpt : Option ℚ) :
    (computeCostH sq g jsd goal origOpt).1 =
        max 0 (goal - sq (2 * jsd)) * g /
          max (1 / 10 ^ 6) (sq (2 * jsd) -
            sq (2 * (match origOpt with
                     | none => max 0 (jsd - 1 / 10 ^ 10)
                     | some o => o))) ∧
      (computeCostH sq g jsd goal origOpt).2 =
        some (match origOpt with
              | none => max 0 (jsd - 1 / 10 ^ 10)
              | some o => o) ∧
      (g = 0 → (computeCostH sq g jsd goal origOpt).1 = 0) ∧
      (goal ≤ sq (2 * jsd) → (computeCostH sq g jsd goal origOpt).1 = 0) := by
  refine ⟨?_, rfl, ?_, ?_⟩
  · unfold computeCostH
    simp only
    rw [mul_div_assoc]
  · intro hg
    unfold computeCostH
    simp only [hg, zero_div, mul_zero]
  · intro hgoal
    unfold computeCostH
    simp only
    rw [max_eq_left (sub_nonpos.mpr hgoal), zero_mul]

/-- Witness for C5 at `sq = id`, `g = 0`, `jsd = 0`, `goal = 1`, first
evaluation: the heuristic returns 0 and stores `originalJsd = 0`. -/
theorem c5_witness :
    (computeCostH id 0 0 1 none).1 = 0 ∧ (computeCostH id 0 0 1 none).2 = some 0 := by
  refine ⟨(c5_heuristic_formula id 0 0 1 none).2.2.1 rfl, ?_⟩
  rw [(c5_heuristic_formula id 0 0 1 none).2.1]
  norm_num

/-- Claim C7 (amended): whenever a computed Jensen–Shannon divergence
exceeds 1.0, the engine prints a warning to stderr and the
`assert(jsd <= 1.0)` condition is violated (aborting debug builds); the
stored jsd value is the raw, unclamped divergence, and release builds
continue the search with it. -/
theorem c7_overflow_warns_without_clamping (jsd : ℚ) (h : 1 < jsd) :
    (processJsd jsd).1 = true ∧ (processJsd jsd).2.1 = false ∧
      (processJsd jsd).2.2 = jsd := by
  unfold processJsd
  refine ⟨?_, ?_, rfl⟩
  · simp [h]
  · simp [not_le.mpr h]

/-- Witness for C7 at `jsd = 2`. -/
theorem c7_witness :
    (processJsd 2).1 = true ∧ (processJsd 2).2.1 = false ∧ (processJsd 2).2.2 = 2 :=
  c7_overflow_warns_without_clamping 2 (by norm_num)

/-- Counterexample to claim C7 as stated: at `jsd = 2` the engine does print
the warning, but the stored value is 2, not the claimed clamp at 1.0. -/
theorem c7_counterexample :
    (processJsd 2).1 = true ∧ (processJsd 2).2.2 = 2 ∧ (processJsd 2).2.2 ≠ 1 := by
  refine ⟨by norm_num [processJsd], rfl, by norm_num [processJsd]⟩

/-! ### MD5 (the digest `DiffString::updateHash` computes via OpenSSL)

Reference implementation of RFC 1321 over byte lists, with 32-bit words as
naturals reduced mod 2 ^ 32. -/

/-- Sine-derived MD5 round constants. -/
def md5K : List Nat :=
  [3614090360, 3905402710, 606105819, 3250441966, 4118548399, 1200080426,
   2821735955, 4249261313, 1770035416, 2336552879, 4294925233, 2304563134,
   1804603682, 4254626195, 2792965006, 1236535329, 4129170786, 3225465664,
   643717713, 3921069994, 3593408605, 38016083, 3634488961, 3889429448,
   568446438, 3275163606, 4107603335, 1163531501, 2850285829, 4243563512,
   1735328473, 2368359562, 4294588738, 2272392833, 1839030562, 4259657740,
   2763975236, 1272893353, 4139469664, 3200236656, 681279174, 3936430074,
   3572445317, 76029189, 3654602809, 3873151461, 530742520, 3299628645,
   4096336452, 1126891415, 2878612391, 4237533241, 1700485571, 2399980690,
   4293915773, 2240044497, 1873313359, 4264355552, 2734768916, 1309151649,
   4149444226, 3174756917, 718787259, 3951481745]

/-- Per-round left-rotation amounts. -/
def md5S : List Nat :=
  [7, 12, 17, 22, 7, 12, 17, 22, 7, 12, 17, 22, 7, 12, 17, 22,
   5, 9, 14, 20, 5, 9, 14, 20, 5, 9, 14, 20, 5, 9, 14, 20,
   4, 11, 16, 23, 4, 11, 16, 23, 4, 11, 16, 23, 4, 11, 16, 23,
   6, 10, 15, 21, 6, 10, 15, 21, 6, 10, 15, 21, 6, 10, 15, 21]

/-- Left-rotation of a 32-bit word. -/
def rotl32 (x s : Nat) : Nat :=
  Nat.lor ((x <<< s) % 2 ^ 32) (x >>> (32 - s))

/-- Nonlinear per-round mixing function (32-bit complement is `2^32−1−x`). -/
def md5F (i b c d : Nat) : Nat :=
  if i < 16 then Nat.lor (Nat.land b c) (Nat.land (4294967295 - b) d)
  else if i < 32 then Nat.lor (Nat.land d b) (Nat.land (4294967295 - d) c)
  else if i < 48 then Nat.xor b (Nat.xor c d)
  else Nat.xor c (Nat.lor b (4294967295 - d))

/-- Message-word schedule. -/
def md5G (i : Nat) : Nat :=
  if i < 16 then i
  else if i < 32 then (5 * i + 1) % 16
  else if i < 48 then (3 * i + 5) % 16
  else (7 * i) % 16

/-- Little-endian bytes of a value, `n` bytes long. -/
def toLEBytes (n : Nat) (x : Nat) : List Nat :=
  (List.range n).map (fun i => (x >>> (8 * i)) % 256)

/-- RFC 1321 padding: a 0x80 byte, zeros to 56 mod 64, then the bit length
as a 64-bit little-endian value. -/
def md5pad (msg : List Nat) : List Nat :=
  msg ++ [128] ++ List.replicate ((119 - msg.length % 64) % 64) 0 ++
    toLEBytes 8 ((msg.length * 8) % 2 ^ 64)

/-- Split into `n` 64-byte chunks. -/
def chunksN : Nat → List Nat → List (List Nat)
  | 0, _ => []
  | n + 1, l => l.take 64 :: chunksN n (l.drop 64)

/-- Little-endian 32-bit word `g` of a 64-byte chunk. -/
def leWord (chunk : List Nat) (g : Nat) : Nat :=
  chunk.getD (4 * g) 0 + chunk.getD (4 * g + 1) 0 * 256 +
    chunk.getD (4 * g + 2) 0 * 65536 + chunk.getD (4 * g + 3) 0 * 16777216

/-- One of the 64 MD5 rounds. -/
def md5round (chunk : List Nat) (st : Nat × Nat × Nat × Nat) (i : Nat) :
    Nat × Nat × Nat × Nat :=
  let f := (md5F i st.2.1 st.2.2.1 st.2.2.2 + st.1 + md5K.getD i 0 +
    leWord chunk (md5G i)) % 2 ^ 32
  (st.2.2.2, (st.2.1 + rotl32 f (md5S.getD i 0)) % 2 ^ 32, st.2.1, st.2.2.1)

/-- Compression of one 64-byte chunk. -/
def md5chunk (st : Nat × Nat × Nat × Nat) (chunk : List Nat) :
    Nat × Nat × Nat × Nat :=
  let r := (List.range 64).foldl (md5round chunk) st
  ((st.1 + r.1) % 2 ^ 32, (st.2.1 + r.2.1) % 2 ^ 32,
   (st.2.2.1 + r.2.2.1) % 2 ^ 32, (st.2.2.2 + r.2.2.2) % 2 ^ 32)

/-- The 16-byte MD5 digest of a byte list. -/
def md5 (msg : List Nat) : List Nat :=
  let padded := md5pad msg
  let st := (chunksN (padded.length / 64) padded).foldl md5chunk
    (1732584193, 4023233417, 2562383102, 271733878)
  toLEBytes 4 st.1 ++ toLEBytes 4 st.2.1 ++ toLEBytes 4 st.2.2.1 ++
    toLEBytes 4 st.2.2.2

/-! ### DiffString (src/obfuscation/util/DiffString.cpp) -/

/-- Model of `DiffString::Edit` (editPos is a `uint32_t`, charsToDelete a
`uint8_t`, insertion a string; the fields are stored as given). -/
structure EditV where
  pos : Nat
  del : Nat
  ins : List Nat
deriving Repr, DecidableEq

/-- Effect of one edit inside `DiffString::string`:
`erase(editPos, charsToDelete)` followed by `insert(editPos, insertion)`. -/
def applyEditV (s : List Nat) (e : EditV) : List Nat :=
  s.take e.pos ++ e.ins ++ s.drop (e.pos + e.del)

/-- Model of a `DiffString`: source string, edit log, and cached hash. -/
structure DiffStringV where
  source : List Nat
  edits : List EditV
  hash : List Nat
deriving Repr, DecidableEq

/-- Model of `DiffString::string`: replay the edit log on the source. -/
def stringV (d : DiffStringV) : List Nat :=
  d.edits.foldl applyEditV d.source

/-- Model of the `DiffString` constructor: store the source, no edits, and
hash the source (`updateHash(*m_sourceString)`). -/
def mkDiffString (s : List Nat) : DiffStringV :=
  { source := s, edits := [], hash := md5 s }

/-- Model of `DiffString::reset`: replace the source, clear the edit log,
re-hash the new source. -/
def resetD (_d : DiffStringV) (s : List Nat) : DiffStringV :=
  { source := s, edits := [], hash := md5 s }

/-- Model of the single-argument `DiffString::edit`: append the edit to the
log and re-hash the materialized text (`updateHash(string())`). -/
def edit1D (d : DiffStringV) (e : EditV) : DiffStringV :=
  let appended : DiffStringV := { d with edits := d.edits ++ [e] }
  { appended with hash := md5 (stringV appended) }

/-- Model of the two-argument `DiffString::edit`: append the edit and hash
the caller-supplied text instead of the materialized one. -/
def edit2D (d : DiffStringV) (e : EditV) (text : List Nat) : DiffStringV :=
  { d with edits := d.edits ++ [e], hash := md5 text }

/-- Model of `DiffString::apply`: materialize the text into a fresh source,
clear the edit log, leave the hash untouched. -/
def applyD (d : DiffStringV) : DiffStringV :=
  { source := stringV d, edits := [], hash := d.hash }

/-- The operations claim C10 quantifies over. -/
inductive DOp where
  | reset (s : List Nat)
  | edit1 (e : EditV)
  | applyOp
deriving Repr, DecidableEq

/-- Run one operation on a `DiffString`. -/
def runDOp (d : DiffStringV) : DOp → DiffStringV
  | DOp.reset s => resetD d s
  | DOp.edit1 e => edit1D d e
  | DOp.applyOp => applyD d

/-- Run a sequence of operations on a `DiffString`. -/
def runD (d : DiffStringV) (ops : List DOp) : DiffStringV :=
  ops.foldl runDOp d

/-- The hash cache invariant: the stored hash is the MD5 digest of the
materialized text. -/
def HashInv (d : DiffStringV) : Prop :=
  d.hash = md5 (stringV d)

theorem stringV_applyD (d : DiffStringV) : stringV (applyD d) = stringV d := rfl

theorem runDOp_hashInv (d : DiffStringV) (op : DOp) (h : HashInv d) :
    HashInv (runDOp d op) := by
  cases op with
  | reset s => rfl
  | edit1 e => rfl
  | applyOp =>
    unfold HashInv at *
    show (applyD d).hash = md5 (stringV (applyD d))
    rw [stringV_applyD]
    exact h

theorem runD_hashInv (d : DiffStringV) (ops : List DOp) (h : HashInv d) :
    HashInv (runD d ops) := by
  induction ops generalizing d with
  | nil => exact h
  | cons op rest ih => exact ih (runDOp d op) (runDOp_hashInv d op h)

/-- Claim C10: after constructing a DiffString from a string, and after
every reset, apply, or single-argument edit operation, hashValue() equals
the 16-byte MD5 digest of the materialized text string(); consequently any
two DiffStrings maintained through these operations whose materialized
texts are equal have equal hashValue, and equal std::hash values (the
std::hash specialization applies a fixed function to hashValue()). -/
theorem c10_hash_is_md5_of_text (src src2 : List Nat) (ops ops2 : List DOp)
    (heq : stringV (runD (mkDiffString src) ops) = stringV (runD (mkDiffString src2) ops2)) :
    (runD (mkDiffString src) ops).hash = md5 (stringV (runD (mkDiffString src) ops)) ∧
      (runD (mkDiffString src) ops).hash = (runD (mkDiffString src2) ops2).hash ∧
      ∀ f : List Nat → Nat,
        f (runD (mkDiffString src) ops).hash = f (runD (mkDiffString src2) ops2).hash := by
  have h1 : HashInv (runD (mkDiffString src) ops) :=
    runD_hashInv (mkDiffString src) ops rfl
  have h2 : HashInv (runD (mkDiffString src2) ops2) :=
    runD_hashInv (mkDiffString src2) ops2 rfl
  have hh : (runD (mkDiffString src) ops).hash = (runD (mkDiffString src2) ops2).hash := by
    rw [h1, h2, heq]
  exact ⟨h1, hh, fun f => congrArg f hh⟩

/-- Witness for C10: the DiffString built directly from "ab" and the
DiffString built from "a" followed by an edit inserting "b" at position 1
materialize the same text, so the theorem yields the hash invariant and
equal hashes. -/
theorem c10_witness :
    (runD (mkDiffString [97, 98]) []).hash =
        md5 (stringV (runD (mkDiffString [97, 98]) [])) ∧
      (runD (mkDiffString [97, 98]) []).hash =
        (runD (mkDiffString [97]) [DOp.edit1 ⟨1, 0, [98]⟩]).hash ∧
      ∀ f : List Nat → Nat,
        f (runD (mkDiffString [97, 98]) []).hash =
          f (runD (mkDiffString [97]) [DOp.edit1 ⟨1, 0, [98]⟩]).hash :=
  c10_hash_is_md5_of_text [97, 98] [97] [] [DOp.edit1 ⟨1, 0, [98]⟩] (by decide)

/-! ### ObfuscationOperator::updateSuccessor
(src/obfuscation/operators/ObfuscationOperator.cpp, lines 193–228) -/

/-- A search state as far as `updateSuccessor` observes and mutates it:
its diff text and its n-gram profile. -/
structure StateV where
  text : DiffStringV
  profile : NgramProfileV
deriving Repr, DecidableEq

/-- Model of `ObfuscationOperator::updateSuccessor`. The focus point is the
byte offset of the focus 3-gram in the original text; `editStart`/`editEnd`
are byte offsets into the original text and `upd` the replacement string.
Returns the C++ boolean result and the successor state after the call (left
untouched on the `false` path; on the `true` path the profile is cloned and
updated from the old/new windows and the diff text receives the two-argument
edit with the `uint32_t`/`uint8_t` casts of the C++ `Edit` constructor). -/
def updateSuccessorV (origState successor : StateV) (text : List Nat)
    (ngramOffset editStart editEnd : Nat) (upd : List Nat) : Bool × StateV :=
  let origNgram := (text.drop ngramOffset).take 3
  let newText := text.take editStart ++ upd ++ text.drop editEnd
  let newBegin := editStart - 3
  let newEnd := min (editStart + upd.length + 3) newText.length
  let window := (newText.take newEnd).drop newBegin
  if origNgram <:+: window then (false, successor)
  else
    let oldBegin := editStart - 3
    let oldEnd := min (editEnd + 3) text.length
    let oldWindow := (text.take oldEnd).drop oldBegin
    let newProfile := updateFromStringRangeV (cloneV origState.profile) oldWindow window
    let newDiff := edit2D origState.text
      ⟨oldBegin % 2 ^ 32, (oldEnd - oldBegin) % 2 ^ 8, window⟩ newText
    (true, { text := newDiff, profile := newProfile })

/-- Claim C3: whenever updateSuccessor accepts a proposed edit (returns
true), the window of the successor text extending 3 characters beyond the
edit range on each side (clamped to the text) does not contain the original
focus 3-gram; whenever that window would still contain the focus 3-gram,
updateSuccessor returns false and leaves the successor state unchanged. -/
theorem c3_update_successor_filters_focus_ngram (origState successor : StateV)
    (text : List Nat) (ngramOffset editStart editEnd : Nat) (upd : List Nat) :
    (((updateSuccessorV origState successor text ngramOffset editStart editEnd upd).1 = true →
        ¬ (text.drop ngramOffset).take 3 <:+:
          (((text.take editStart ++ upd ++ text.drop editEnd).take
              (min (editStart + upd.length + 3)
                (text.take editStart ++ upd ++ text.drop editEnd).length)).drop
            (editStart - 3))) ∧
      ((text.drop ngramOffset).take 3 <:+:
          (((text.take editStart ++ upd ++ text.drop editEnd).take
              (min (editStart + upd.length + 3)
                (text.take editStart ++ upd ++ text.drop editEnd).length)).drop
            (editStart - 3)) →
        (updateSuccessorV origState successor text ngramOffset editStart editEnd upd).1 = false ∧
        (updateSuccessorV origState successor text ngramOffset editStart editEnd upd).2 =
          successor)) := by
  unfold updateSuccessorV
  by_cases h : (text.drop ngramOffset).take 3 <:+:
      (((text.take editStart ++ upd ++ text.drop editEnd).take
          (min (editStart + upd.length + 3)
            (text.take editStart ++ upd ++ text.drop editEnd).length)).drop
        (editStart - 3))
  · simp only [if_pos h]
    constructor
    · intro hfalse
      simp at hfalse
    · intro _
      constructor
      · trivial
      · trivial
  · simp only [if_neg h]
    constructor
    · intro _
      exact h
    · intro hc
      exact absurd hc h

/-- Witness for C3: on the text "abcdef" with focus 3-gram "abc" at offset
0, replacing bytes [0,3) by "xyz" is accepted and the checked window
"xyzdef" indeed does not contain "abc"; re-inserting "abc" instead is
rejected with the successor (here built from the text "s") unchanged. -/
theorem c3_witness :
    (¬ ([97, 98, 99] : List Nat) <:+: [120, 121, 122, 100, 101, 102]) ∧
      ((updateSuccessorV ⟨mkDiffString [97], ⟨[], [], 0, 0⟩⟩
          ⟨mkDiffString [115], ⟨[], [], 0, 0⟩⟩
          [97, 98, 99, 100, 101, 102] 0 0 3 [97, 98, 99]).1 = false ∧
        (updateSuccessorV ⟨mkDiffString [97], ⟨[], [], 0, 0⟩⟩
          ⟨mkDiffString [115], ⟨[], [], 0, 0⟩⟩
          [97, 98, 99, 100, 101, 102] 0 0 3 [97, 98, 99]).2 =
          ⟨mkDiffString [115], ⟨[], [], 0, 0⟩⟩) := by
  constructor
  · have h1 := (c3_update_successor_filters_focus_ngram
      ⟨mkDiffString [97], ⟨[], [], 0, 0⟩⟩ ⟨mkDiffString [115], ⟨[], [], 0, 0⟩⟩
      [97, 98, 99, 100, 101, 102] 0 0 3 [120, 121, 122]).1 (by decide)
    simpa using h1
  · exact (c3_update_successor_filters_focus_ngram
      ⟨mkDiffString [97], ⟨[], [], 0, 0⟩⟩ ⟨mkDiffString [115], ⟨[], [], 0, 0⟩⟩
      [97, 98, 99, 100, 101, 102] 0 0 3 [97, 98, 99]).2 (by decide)

/-! ### Claim C8: sharing semantics of `NgramProfile::clone`

The `shared_ptr` base maps are made explicit: a store holds every allocated
`NgramMap`, and a profile refers to its base map by store index. `clone`
copies the index (sharing the map) and the pending map and counters;
`apply` (also when triggered inside `update`) allocates a fresh map —
clone-before-mutate — and repoints only the applied profile. -/

/-- All base maps ever allocated through `std::make_shared<NgramMap>`. -/
abbrev Store := List NgramMap

/-- A profile holding its base map by reference into the store. -/
structure ProfileRef where
  baseRef : Nat
  updates : NgramMap
  n : Nat
  size : Nat
deriving Repr, DecidableEq

/-- Dereference of `m_ngrams`. -/
def baseAt (st : Store) (p : ProfileRef) : NgramMap :=
  st.getD p.baseRef []

/-- Model of `NgramProfile::clone`: copy `m_n`, `m_size` and the pending map,
share the base map pointer. -/
def cloneS (p : ProfileRef) : ProfileRef :=
  { baseRef := p.baseRef, updates := p.updates, n := p.n, size := p.size }

/-- Model of `NgramProfile::apply` on the store: build the folded map as a
fresh allocation (`make_shared` from the old map's contents), append it to
the store and repoint only this profile. -/
def applyS (st : Store) (p : ProfileRef) : Store × ProfileRef :=
  let newBase := p.updates.foldl
    (fun m kv => if kv.2 = 0 then mapErase m kv.1 else mapSet m kv.1 kv.2) (baseAt st p)
  (st ++ [newBase], { baseRef := st.length, updates := [], n := p.n, size := p.size })

/-- Model of `NgramProfile::update` on the store: the loop reads the shared
base map and writes only the profile's own pending map and counters; the
150-entry threshold triggers `apply`. -/
def updateS (st : Store) (p : ProfileRef) (us : List (Nat × Int)) : Store × ProfileRef :=
  let r := updateCore ⟨baseAt st p, p.updates, p.n, p.size⟩ us
  let p' : ProfileRef := { baseRef := p.baseRef, updates := r.upd, n := r.n, size := r.size }
  if r.upd.length > 150 then applyS st p' else (st, p')

/-- Effective frequency of a store-based profile. -/
def freqS (st : Store) (p : ProfileRef) (k : Nat) : Nat :=
  freqV ⟨baseAt st p, p.updates, p.n, p.size⟩ k

/-- Iteration of a store-based profile. -/
def iterS (st : Store) (p : ProfileRef) : List (Nat × Nat) :=
  iterList (baseAt st p) p.updates

/-- The mutating profile operations claim C8 quantifies over. -/
inductive POpS where
  | update (us : List (Nat × Int))
  | updateRange (oldW newW : List Nat)
  | applyP
deriving Repr, DecidableEq

/-- Run one mutating operation on a store-based profile. -/
def runPOp (st : Store) (p : ProfileRef) : POpS → Store × ProfileRef
  | POpS.update us => updateS st p us
  | POpS.updateRange oldW newW =>
    updateS st p
      ((ngramsFromStringRangeV oldW).map (fun g => (g, (-1 : Int))) ++
       (ngramsFromStringRangeV newW).map (fun g => (g, (1 : Int))))
  | POpS.applyP => applyS st p

/-- Run a sequence of mutating operations on a store-based profile. -/
def runPOps (st : Store) (p : ProfileRef) : List POpS → Store × ProfileRef
  | [] => (st, p)
  | op :: rest => runPOps (runPOp st p op).1 (runPOp st p op).2 rest

/-- Every operation only ever appends fresh allocations to the store. -/
theorem runPOp_store_extends (st : Store) (p : ProfileRef) (op : POpS) :
    ∃ ext, (runPOp st p op).1 = st ++ ext := by
  cases op with
  | update us =>
    unfold runPOp updateS
    simp only
    split
    · exact ⟨_, rfl⟩
    · exact ⟨[], (List.append_nil st).symm⟩
  | updateRange oldW newW =>
    unfold runPOp updateS
    simp only
    split
    · exact ⟨_, rfl⟩
    · exact ⟨[], (List.append_nil st).symm⟩
  | applyP => exact ⟨_, rfl⟩

theorem runPOps_store_extends (st : Store) (p : ProfileRef) (ops : List POpS) :
    ∃ ext, (runPOps st p ops).1 = st ++ ext := by
  induction ops generalizing st p with
  | nil => exact ⟨[], (List.append_nil st).symm⟩
  | cons op rest ih =>
    obtain ⟨e1, he1⟩ := runPOp_store_extends st p op
    obtain ⟨e2, he2⟩ := ih (runPOp st p op).1 (runPOp st p op).2
    refine ⟨e1 ++ e2, ?_⟩
    rw [runPOps, he2, he1, List.append_assoc]

/-- A profile whose base map lives inside the original store reads the same
base map from any extended store. -/
theorem baseAt_extends (st ext : Store) (p : ProfileRef) (hp : p.baseRef < st.length) :
    baseAt (st ++ ext) p = baseAt st p := by
  unfold baseAt
  induction st generalizing p ext with
  | nil => simp at hp
  | cons m rest ih =>
    cases hbr : p.baseRef with
    | zero => simp [List.getD, hbr]
    | succ i =>
      have : i < rest.length := by
        simp [hbr] at hp
        omega
      simp only [List.cons_append, List.getD, hbr]
      have := ih ext { p with baseRef := i } this
      simpa [List.getD] using this

/-- Claim C8: for every store-valid profile P and clone Q = P.clone(), Q
initially yields the same freq, n, size and iteration as P, and any
subsequent sequence of update, updateFromStringRange and apply calls
performed on Q leaves all of P's observable values (freq of every n-gram,
n, size, iteration) unchanged; symmetrically, the same operation sequence
performed on P leaves Q's observables unchanged. -/
theorem c8_clone_isolation (st : Store) (p : ProfileRef) (hp : p.baseRef < st.length)
    (ops : List POpS) :
    ((∀ k, freqS st (cloneS p) k = freqS st p k) ∧
        (cloneS p).n = p.n ∧ (cloneS p).size = p.size ∧
        iterS st (cloneS p) = iterS st p) ∧
      ((∀ k, freqS (runPOps st (cloneS p) ops).1 p k = freqS st p k) ∧
        iterS (runPOps st (cloneS p) ops).1 p = iterS st p) ∧
      ((∀ k, freqS (runPOps st p ops).1 (cloneS p) k = freqS st (cloneS p) k) ∧
        iterS (runPOps st p ops).1 (cloneS p) = iterS st (cloneS p)) := by
  refine ⟨⟨fun k => rfl, rfl, rfl, rfl⟩, ⟨?_, ?_⟩, ⟨?_, ?_⟩⟩
  · intro k
    obtain ⟨ext, hext⟩ := runPOps_store_extends st (cloneS p) ops
    unfold freqS
    rw [hext, baseAt_extends st ext p hp]
  · obtain ⟨ext, hext⟩ := runPOps_store_extends st (cloneS p) ops
    unfold iterS
    rw [hext, baseAt_extends st ext p hp]
  · intro k
    obtain ⟨ext, hext⟩ := runPOps_store_extends st p ops
    unfold freqS
    rw [hext, baseAt_extends st ext (cloneS p) hp]
  · obtain ⟨ext, hext⟩ := runPOps_store_extends st p ops
    unfold iterS
    rw [hext, baseAt_extends st ext (cloneS p) hp]

/-- Witness for C8: a store with one base map {5 ↦ 2}, a profile pointing at
it, and a clone that is updated with a −1 delta and then applied (allocating
a fresh base map): the original profile's iteration and frequency are
untouched. -/
theorem c8_witness :
    iterS (runPOps [[(5, 2)]] (cloneS ⟨0, [], 2, 1⟩)
        [POpS.update [(5, -1)], POpS.applyP]).1 ⟨0, [], 2, 1⟩ =
      iterS [[(5, 2)]] ⟨0, [], 2, 1⟩ ∧
    freqS (runPOps [[(5, 2)]] (cloneS ⟨0, [], 2, 1⟩)
        [POpS.update [(5, -1)], POpS.applyP]).1 ⟨0, [], 2, 1⟩ 5 =
      freqS [[(5, 2)]] ⟨0, [], 2, 1⟩ 5 :=
  ⟨(c8_clone_isolation [[(5, 2)]] ⟨0, [], 2, 1⟩ (by decide)
      [POpS.update [(5, -1)], POpS.applyP]).2.1.2,
   (c8_clone_isolation [[(5, 2)]] ⟨0, [], 2, 1⟩ (by decide)
      [POpS.update [(5, -1)], POpS.applyP]).2.1.1 5⟩

/-! ### OpenList (src/search-generic/search/generic/OpenList.hpp)

The heap vector is a list of nodes; `std::push_heap`, `std::pop_heap` and
`std::make_heap` with the `HigherCost` comparator (`lhs.costF() >
rhs.costF()`, giving a min-heap on costF) are implemented by the classic
sift algorithms the standard library uses. Costs (`double`) are embedded as
an arbitrary linear order; state hashes (`std::string`) as naturals, with
each node carrying the hash of its state. -/

/-- A search node as far as `OpenList` observes it: its state hash and the
two cost values. -/
structure NodeH (α : Type) where
  stateHash : Nat
  costG : α
  costF : α
deriving Repr, DecidableEq

instance [Inhabited α] : Inhabited (NodeH α) := ⟨⟨0, default, default⟩⟩

/-- Node at position `i` of the heap vector. -/
def ndAt [Inhabited α] (l : List (NodeH α)) (i : Nat) : NodeH α :=
  l.getD i default

/-- Swap the vector entries at positions `i` and `j`. -/
def lswap [Inhabited α] (l : List (NodeH α)) (i j : Nat) : List (NodeH α) :=
  (l.set i (ndAt l j)).set j (ndAt l i)

/-- Sift-up pass of `std::push_heap` (fuel-bounded; the hole index strictly
decreases, so fuel `i + 1` is always sufficient). -/
def siftUpF [LinearOrder α] [Inhabited α] :
    Nat → List (NodeH α) → Nat → List (NodeH α)
  | 0, l, _ => l
  | fuel + 1, l, i =>
    if 0 < i then
      if (ndAt l i).costF < (ndAt l ((i - 1) / 2)).costF then
        siftUpF fuel (lswap l ((i - 1) / 2) i) ((i - 1) / 2)
      else l
    else l

/-- Model of `std::push_heap` on the full vector: sift the last element up. -/
def pushHeapL [LinearOrder α] [Inhabited α] (l : List (NodeH α)) : List (NodeH α) :=
  siftUpF l.length l (l.length - 1)

/-- Child of `i` with the smaller costF among the children below `m`
(assuming the left child exists). -/
def minChild [LinearOrder α] [Inhabited α] (l : List (NodeH α)) (i m : Nat) : Nat :=
  if 2 * i + 2 < m ∧ (ndAt l (2 * i + 2)).costF < (ndAt l (2 * i + 1)).costF
  then 2 * i + 2 else 2 * i + 1

/-- Sift-down pass of `std::pop_heap`/`std::make_heap` within the prefix of
length `m` (fuel-bounded; the hole index strictly increases and stays below
`m`, so fuel `m` is always sufficient). -/
def siftDownF [LinearOrder α] [Inhabited α] :
    Nat → List (NodeH α) → Nat → Nat → List (NodeH α)
  | 0, l, _, _ => l
  | fuel + 1, l, i, m =>
    if 2 * i + 1 < m then
      if (ndAt l (minChild l i m)).costF < (ndAt l i).costF then
        siftDownF fuel (lswap l i (minChild l i m)) (minChild l i m) m
      else l
    else l

/-- Model of `std::pop_heap`: swap the root with the last element and sift
the new root down within the shortened prefix. -/
def popHeapL [LinearOrder α] [Inhabited α] (l : List (NodeH α)) : List (NodeH α) :=
  if l.length ≤ 1 then l
  else siftDownF (l.length - 1) (lswap l 0 (l.length - 1)) 0 (l.length - 1)

/-- Floyd heap construction of `std::make_heap`: sift down at every index,
from the back toward the root. -/
def makeHeapF [LinearOrder α] [Inhabited α] :
    Nat → List (NodeH α) → List (NodeH α)
  | 0, l => l
  | k + 1, l => makeHeapF k (siftDownF l.length l k l.length)

/-- Model of `std::make_heap` on the full vector. -/
def makeHeapL [LinearOrder α] [Inhabited α] (l : List (NodeH α)) : List (NodeH α) :=
  makeHeapF l.length l

/-- Heap order on the prefix of length `m` for edges whose parent index is
at least `start`: the `std::is_heap` invariant of the `HigherCost`
comparator (`¬ comp(parent, child)`, a min-heap on costF). -/
def HeapFromB [LinearOrder α] [Inhabited α] (l : List (NodeH α)) (start m : Nat) : Prop :=
  ∀ c, c < m → 0 < c → start ≤ (c - 1) / 2 →
    (ndAt l ((c - 1) / 2)).costF ≤ (ndAt l c).costF

/-- The full heap invariant of the `nodes_heap_` vector. -/
def HeapProp [LinearOrder α] [Inhabited α] (l : List (NodeH α)) : Prop :=
  HeapFromB l 0 l.length

instance [LinearOrder α] [Inhabited α] (l : List (NodeH α)) (start m : Nat) :
    Decidable (HeapFromB l start m) := by
  unfold HeapFromB
  exact Nat.decidableBallLT m _

instance [LinearOrder α] [Inhabited α] (l : List (NodeH α)) :
    Decidable (HeapProp l) := by
  unfold HeapProp
  infer_instance

section HeapLemmas

variable {α : Type} [LinearOrder α] [Inhabited α]

theorem length_lswap (l : List (NodeH α)) (i j : Nat) :
    (lswap l i j).length = l.length := by
  unfold lswap
  rw [List.length_set, List.length_set]

theorem ndAt_lswap (l : List (NodeH α)) (i j x : Nat)
    (hi : i < l.length) (hj : j < l.length) :
    ndAt (lswap l i j) x =
      if x = j then ndAt l i else if x = i then ndAt l j else ndAt l x := by
  unfold lswap ndAt
  rw [List.getD_eq_getElem?_getD, List.getD_eq_getElem?_getD, List.getD_eq_getElem?_getD,
    List.getD_eq_getElem?_getD]
  by_cases hxj : x = j
  · subst hxj
    rw [if_pos rfl, List.getElem?_set]
    rw [if_pos rfl, if_pos (by rw [List.length_set]; exact hj)]
    simp [List.getElem?_eq_getElem hi]
  · rw [if_neg hxj, List.getElem?_set_ne (fun h => hxj h.symm)]
    by_cases hxi : x = i
    · subst hxi
      rw [if_pos rfl, List.getElem?_set]
      rw [if_pos rfl, if_pos hi]
      simp [List.getElem?_eq_getElem hj]
    · rw [if_neg hxi, List.getElem?_set_ne (fun h => hxi h.symm)]

theorem cons_set_perm (t : List (NodeH α)) (m : Nat) (a : NodeH α)
    (hm : m < t.length) :
    List.Perm (t.getD m default :: t.set m a) (a :: t) := by
  induction t generalizing m with
  | nil => simp at hm
  | cons b t ih =>
    cases m with
    | zero =>
      rw [List.getD_cons_zero, List.set_cons_zero]
      exact List.Perm.swap a b t
    | succ m =>
      rw [List.getD_cons_succ, List.set_cons_succ]
      have hm' : m < t.length := by simpa using hm
      have h1 : List.Perm (t.getD m default :: b :: t.set m a)
          (b :: t.getD m default :: t.set m a) := List.Perm.swap b _ _
      have h3 : List.Perm (b :: t.getD m default :: t.set m a) (b :: a :: t) :=
        (ih m hm').cons b
      have h4 : List.Perm (b :: a :: t) (a :: b :: t) := List.Perm.swap a b t
      exact h1.trans (h3.trans h4)

theorem lswap_perm (l : List (NodeH α)) (i j : Nat)
    (hi : i < l.length) (hj : j < l.length) : List.Perm (lswap l i j) l := by
  induction l generalizing i j with
  | nil => simp at hi
  | cons a t ih =>
    cases i with
    | zero =>
      cases j with
      | zero =>
        unfold lswap ndAt
        simp only [List.getD_cons_zero, List.set_cons_zero]
        exact List.Perm.refl _
      | succ m =>
        unfold lswap ndAt
        simp only [List.getD_cons_zero, List.getD_cons_succ, List.set_cons_zero,
          List.set_cons_succ]
        have hm : m < t.length := by simpa using hj
        exact cons_set_perm t m a hm
    | succ n =>
      cases j with
      | zero =>
        unfold lswap ndAt
        simp only [List.getD_cons_zero, List.getD_cons_succ, List.set_cons_zero,
          List.set_cons_succ]
        have hn : n < t.length := by simpa using hi
        exact cons_set_perm t n a hn
      | succ m =>
        unfold lswap ndAt
        simp only [List.getD_cons_succ, List.set_cons_succ]
        have hn : n < t.length := by simpa using hi
        have hm : m < t.length := by simpa using hj
        exact (ih n m hn hm).cons a

theorem ndAt_append (l l2 : List (NodeH α)) (x : Nat) (hx : x < l.length) :
    ndAt (l ++ l2) x = ndAt l x := by
  unfold ndAt
  rw [List.getD_eq_getElem?_getD, List.getD_eq_getElem?_getD,
    List.getElem?_append, if_pos hx]

theorem ndAt_take (l : List (NodeH α)) (k x : Nat) (hx : x < k) :
    ndAt (l.take k) x = ndAt l x := by
  unfold ndAt
  rw [List.getD_eq_getElem?_getD, List.getD_eq_getElem?_getD,
    List.getElem?_take_of_lt hx]

theorem siftUpF_length (fuel : Nat) (l : List (NodeH α)) (i : Nat) :
    (siftUpF fuel l i).length = l.length := by
  induction fuel generalizing l i with
  | zero => rfl
  | succ fuel ih =>
    unfold siftUpF
    split
    · split
      · rw [ih, length_lswap]
      · rfl
    · rfl

theorem siftUpF_perm (fuel : Nat) (l : List (NodeH α)) (i : Nat)
    (hi : i < l.length) : List.Perm (siftUpF fuel l i) l := by
  induction fuel generalizing l i with
  | zero => exact List.Perm.refl l
  | succ fuel ih =>
    unfold siftUpF
    split
    · rename_i h0
      split
      · rename_i hviol
        have hp : (i - 1) / 2 < l.length := by omega
        have hi' : (i - 1) / 2 < (lswap l ((i - 1) / 2) i).length := by
          rw [length_lswap]; omega
        exact (ih (lswap l ((i - 1) / 2) i) ((i - 1) / 2) hi').trans
          (lswap_perm l ((i - 1) / 2) i hp hi)
      · exact List.Perm.refl l
    · exact List.Perm.refl l

/-- Sift-up loop invariant: every heap edge except the one into the hole is
ordered, and the hole's children dominate the hole's parent. -/
def SUInv [LinearOrder α] (l : List (NodeH α)) (i : Nat) : Prop :=
  i < l.length ∧
    (∀ c, c < l.length → 0 < c → c ≠ i →
      (ndAt l ((c - 1) / 2)).costF ≤ (ndAt l c).costF) ∧
    (0 < i → ∀ c, c < l.length → 0 < c → (c - 1) / 2 = i →
      (ndAt l ((i - 1) / 2)).costF ≤ (ndAt l c).costF)

theorem siftUpF_heap (fuel : Nat) (l : List (NodeH α)) (i : Nat)
    (hfuel : i < fuel) (hsu : SUInv l i) : HeapProp (siftUpF fuel l i) := by
  induction fuel generalizing l i with
  | zero => omega
  | succ fuel ih =>
    obtain ⟨hi, hheap, hlow⟩ := hsu
    unfold siftUpF
    split
    · rename_i h0
      split
      · rename_i hviol
        set p := (i - 1) / 2 with hpdef
        have hplt : p < i := by omega
        have hp : p < l.length := by omega
        have hkey : ∀ x, x < l.length → ndAt (lswap l p i) x =
            if x = i then ndAt l p else if x = p then ndAt l i else ndAt l x :=
          fun x _ => ndAt_lswap l p i x hp hi
        apply ih
        · omega
        · refine ⟨by rw [length_lswap]; omega, ?_, ?_⟩
          · intro c hc hc0 hcp
            rw [length_lswap] at hc
            have hparc : (c - 1) / 2 < l.length := by omega
            by_cases hci : c = i
            · subst hci
              rw [hkey _ hparc, hkey _ hi]
              rw [if_neg (by omega), if_pos rfl, if_pos rfl]
              exact le_of_lt hviol
            · by_cases hpc : (c - 1) / 2 = i
              · rw [hkey _ hparc, hkey _ hc]
                rw [hpc, if_pos rfl, if_neg hci, if_neg (by omega)]
                have h1 : 0 < i := h0
                exact hlow h1 c hc hc0 hpc
              · by_cases hpc2 : (c - 1) / 2 = p
                · rw [hkey _ hparc, hkey _ hc]
                  rw [hpc2, if_neg (by omega), if_pos rfl, if_neg hci, if_neg (by omega)]
                  have hsib : (ndAt l p).costF ≤ (ndAt l c).costF := by
                    rw [← hpc2]
                    exact hheap c hc hc0 hci
                  exact le_trans (le_of_lt hviol) hsib
                · rw [hkey _ hparc, hkey _ hc]
                  rw [if_neg hpc, if_neg hpc2, if_neg hci, if_neg (by omega)]
                  exact hheap c hc hc0 hci
          · intro hp0 c hc hc0 hpc
            rw [length_lswap] at hc
            have hgp : (p - 1) / 2 < p := by omega
            have hgplen : (p - 1) / 2 < l.length := by omega
            rw [hkey _ hgplen, hkey _ hc]
            rw [if_neg (by omega), if_neg (by omega)]
            have hKp : (ndAt l ((p - 1) / 2)).costF ≤ (ndAt l p).costF :=
              hheap p hp hp0 (by omega)
            by_cases hci : c = i
            · rw [if_pos hci]
              exact hKp
            · rw [if_neg hci, if_neg (by omega)]
              have : (ndAt l ((c - 1) / 2)).costF ≤ (ndAt l c).costF :=
                hheap c hc hc0 hci
              rw [hpc] at this
              exact le_trans hKp this
      · rename_i hviol
        intro c hc hc0 _
        by_cases hci : c = i
        · subst hci
          exact not_lt.mp hviol
        · exact hheap c hc hc0 hci
    · rename_i h0
      intro c hc hc0 _
      exact hheap c hc hc0 (by omega)

/-- Contract of `std::push_heap`: appending a node to a heap and sifting it up
restores the heap invariant. -/
theorem pushHeapL_heap (l : List (NodeH α)) (v : NodeH α) (h : HeapProp l) :
    HeapProp (pushHeapL (l ++ [v])) := by
  unfold pushHeapL
  have hlen : (l ++ [v]).length = l.length + 1 := by simp
  rw [hlen]
  have hidx : l.length + 1 - 1 = l.length := by omega
  rw [hidx]
  apply siftUpF_heap _ _ _ (by omega)
  refine ⟨by simp, ?_, ?_⟩
  · intro c hc hc0 hcn
    rw [hlen] at hc
    have hc' : c < l.length := by omega
    have hparc : (c - 1) / 2 < l.length := by omega
    rw [ndAt_append _ _ _ hparc, ndAt_append _ _ _ hc']
    exact h c hc' hc0 (by omega)
  · intro h0 c hc hc0 hpc
    rw [hlen] at hc
    omega

theorem minChild_lt (l : List (NodeH α)) (i m : Nat) (h : 2 * i + 1 < m) :
    i < minChild l i m ∧ minChild l i m < m ∧ (minChild l i m - 1) / 2 = i := by
  unfold minChild
  split <;> omega

theorem minChild_min (l : List (NodeH α)) (i m d : Nat) (h : 2 * i + 1 < m)
    (hd : d < m) (hd0 : 0 < d) (hpard : (d - 1) / 2 = i) (hdc : d ≠ minChild l i m) :
    (ndAt l (minChild l i m)).costF ≤ (ndAt l d).costF := by
  have hdcase : d = 2 * i + 1 ∨ d = 2 * i + 2 := by omega
  unfold minChild at *
  split at hdc
  · rename_i hpick
    have hd1 : d = 2 * i + 1 := by
      rcases hdcase with h1 | h1
      · exact h1
      · omega
    rw [if_pos hpick, hd1]
    exact le_of_lt hpick.2
  · rename_i hpick
    have hd2 : d = 2 * i + 2 := by
      rcases hdcase with h1 | h1
      · omega
      · exact h1
    rw [if_neg hpick, hd2]
    have h2m : 2 * i + 2 < m := by omega
    exact not_lt.mp (not_and.mp hpick h2m)

theorem siftDownF_length (fuel : Nat) (l : List (NodeH α)) (i m : Nat) :
    (siftDownF fuel l i m).length = l.length := by
  induction fuel generalizing l i with
  | zero => rfl
  | succ fuel ih =>
    unfold siftDownF
    split
    · split
      · rw [ih, length_lswap]
      · rfl
    · rfl

theorem siftDownF_perm (fuel : Nat) (l : List (NodeH α)) (i m : Nat)
    (hm : m ≤ l.length) (hi : i < m) : List.Perm (siftDownF fuel l i m) l := by
  induction fuel generalizing l i with
  | zero => exact List.Perm.refl l
  | succ fuel ih =>
    unfold siftDownF
    split
    · rename_i hc1
      split
      · rename_i hviol
        obtain ⟨hic, hcm, _⟩ := minChild_lt l i m hc1
        have hswlen : (lswap l i (minChild l i m)).length = l.length :=
          length_lswap l i (minChild l i m)
        exact (ih (lswap l i (minChild l i m)) (minChild l i m)
            (by omega) (by omega)).trans
          (lswap_perm l i (minChild l i m) (by omega) (by omega))
      · exact List.Perm.refl l
    · exact List.Perm.refl l

theorem siftDownF_ndAt_ge (fuel : Nat) (l : List (NodeH α)) (i m x : Nat)
    (hm : m ≤ l.length) (hi : i < m) (hx : m ≤ x) :
    ndAt (siftDownF fuel l i m) x = ndAt l x := by
  induction fuel generalizing l i with
  | zero => rfl
  | succ fuel ih =>
    unfold siftDownF
    split
    · rename_i hc1
      split
      · rename_i hviol
        obtain ⟨hic, hcm, _⟩ := minChild_lt l i m hc1
        have hswlen : (lswap l i (minChild l i m)).length = l.length :=
          length_lswap l i (minChild l i m)
        rw [ih (lswap l i (minChild l i m)) (minChild l i m) (by omega) (by omega)]
        rw [ndAt_lswap l i (minChild l i m) x (by omega) (by omega)]
        rw [if_neg (by omega), if_neg (by omega)]
      · rfl
    · rfl

/-- Sift-down loop invariant (Floyd): in the active region, every edge whose
parent is at least `start` is ordered except the edges out of the hole, and
the hole's children dominate the hole's parent once the hole has moved. -/
def SDInv [LinearOrder α] (l : List (NodeH α)) (start hole m : Nat) : Prop :=
  start ≤ hole ∧ hole < m ∧
    (∀ c, c < m → 0 < c → start ≤ (c - 1) / 2 → (c - 1) / 2 ≠ hole →
      (ndAt l ((c - 1) / 2)).costF ≤ (ndAt l c).costF) ∧
    (start < hole → ∀ c, c < m → 0 < c → (c - 1) / 2 = hole →
      (ndAt l ((hole - 1) / 2)).costF ≤ (ndAt l c).costF)

theorem siftDownF_heapFrom (fuel : Nat) (l : List (NodeH α)) (i start m : Nat)
    (hm : m ≤ l.length) (hfuel : m ≤ fuel + i) (hsd : SDInv l start i m) :
    HeapFromB (siftDownF fuel l i m) start m := by
  induction fuel generalizing l i with
  | zero =>
    obtain ⟨_, him, _, _⟩ := hsd
    omega
  | succ fuel ih =>
    obtain ⟨hsi, him, hheap, hupper⟩ := hsd
    unfold siftDownF
    split
    · rename_i hc1
      set c := minChild l i m with hcdef
      obtain ⟨hic, hcm, hparc⟩ := minChild_lt l i m hc1
      rw [← hcdef] at hic hcm hparc
      have hmin : ∀ d, d < m → 0 < d → (d - 1) / 2 = i → d ≠ c →
          (ndAt l c).costF ≤ (ndAt l d).costF := by
        intro d hd hd0 hpard hdc
        rw [hcdef]
        exact minChild_min l i m d hc1 hd hd0 hpard (hcdef ▸ hdc)
      split
      · rename_i hviol
        have hswlen : (lswap l i c).length = l.length := length_lswap l i c
        have hkey : ∀ x, x < l.length → ndAt (lswap l i c) x =
            if x = c then ndAt l i else if x = i then ndAt l c else ndAt l x :=
          fun x _ => ndAt_lswap l i c x (by omega) (by omega)
        apply ih
        · omega
        · omega
        · refine ⟨by omega, hcm, ?_, ?_⟩
          · intro d hd hd0 hsd hdc
            have hpard : (d - 1) / 2 < m := by omega
            rw [hkey _ (by omega), hkey _ (by omega)]
            by_cases hdi : d = i
            · subst hdi
              rw [if_neg (by omega), if_neg (by omega)]
              have h0i : 0 < d := hd0
              have hstart : start < d := by
                have : (d - 1) / 2 < d := by omega
                omega
              rw [if_neg (by omega), if_pos rfl]
              have := hupper hstart c hcm (by omega) hparc
              exact this
            · by_cases hdc2 : d = c
              · subst hdc2
                rw [if_pos rfl, hparc, if_neg (by omega), if_pos rfl]
                exact le_of_lt hviol
              · by_cases hpardi : (d - 1) / 2 = i
                · rw [if_neg hdc2, if_neg hdi, hpardi, if_neg (by omega), if_pos rfl]
                  exact hmin d hd hd0 hpardi hdc2
                · rw [if_neg hdc2, if_neg hdi, if_neg (by omega), if_neg hpardi]
                  exact hheap d hd hd0 hsd (by omega)
          · intro hstart d hd hd0 hpard
            have hdgt : c < d := by omega
            rw [hkey _ (by omega), hkey _ (by omega)]
            rw [hparc, if_neg (by omega), if_pos rfl, if_neg (by omega), if_neg (by omega)]
            have := hheap d hd hd0 (by omega) (by omega)
            rwa [hpard] at this
      · rename_i hviol
        intro d hd hd0 hsd
        by_cases hpardi : (d - 1) / 2 = i
        · rw [hpardi]
          have : (ndAt l c).costF ≤ (ndAt l d).costF := by
            by_cases hdc : d = c
            · rw [hdc]
            · exact hmin d hd hd0 hpardi hdc
          exact le_trans (not_lt.mp hviol) this
        · exact hheap d hd hd0 hsd hpardi
    · rename_i hc1
      intro d hd hd0 hsd
      by_cases hpardi : (d - 1) / 2 = i
      · omega
      · exact hheap d hd hd0 hsd hpardi

theorem makeHeapF_length (k : Nat) (l : List (NodeH α)) :
    (makeHeapF k l).length = l.length := by
  induction k generalizing l with
  | zero => rfl
  | succ k ih =>
    unfold makeHeapF
    rw [ih, siftDownF_length]

theorem makeHeapF_perm (k : Nat) (l : List (NodeH α)) (hk : k ≤ l.length) :
    List.Perm (makeHeapF k l) l := by
  induction k generalizing l with
  | zero => exact List.Perm.refl l
  | succ k ih =>
    unfold makeHeapF
    have hlen : (siftDownF l.length l k l.length).length = l.length :=
      siftDownF_length _ _ _ _
    exact (ih (siftDownF l.length l k l.length) (by omega)).trans
      (siftDownF_perm l.length l k l.length (le_refl _) (by omega))

theorem makeHeapF_heap (k : Nat) (l : List (NodeH α)) (hk : k ≤ l.length)
    (h : HeapFromB l k l.length) : HeapProp (makeHeapF k l) := by
  induction k generalizing l with
  | zero =>
    unfold HeapProp
    exact h
  | succ k ih =>
    unfold makeHeapF
    have hlen : (siftDownF l.length l k l.length).length = l.length :=
      siftDownF_length _ _ _ _
    apply ih
    · omega
    · rw [hlen]
      apply siftDownF_heapFrom _ _ _ _ _ (le_refl _) (by omega)
      refine ⟨le_refl k, by omega, ?_, ?_⟩
      · intro c hc hc0 hkc hne
        exact h c hc hc0 (by omega)
      · intro hkk
        omega

/-- Contract of `std::make_heap`: the result satisfies the heap invariant and
is a permutation of the input. -/
theorem makeHeapL_heap (l : List (NodeH α)) : HeapProp (makeHeapL l) := by
  unfold makeHeapL
  apply makeHeapF_heap _ _ (le_refl _)
  intro c hc hc0 hkc
  omega

theorem makeHeapL_perm (l : List (NodeH α)) : List.Perm (makeHeapL l) l :=
  makeHeapF_perm _ _ (le_refl _)

theorem makeHeapL_length (l : List (NodeH α)) : (makeHeapL l).length = l.length :=
  makeHeapF_length _ _

/-- The root of a heap prefix has the least costF in the prefix. -/
theorem heapFromB_root_min (l : List (NodeH α)) (m : Nat) (h : HeapFromB l 0 m) :
    ∀ j, j < m → (ndAt l 0).costF ≤ (ndAt l j).costF := by
  intro j
  induction j using Nat.strong_induction_on with
  | _ j ih =>
    intro hj
    rcases Nat.eq_zero_or_pos j with hj0 | hj0
    · rw [hj0]
    · have hpar : (j - 1) / 2 < j := by omega
      have h1 : (ndAt l 0).costF ≤ (ndAt l ((j - 1) / 2)).costF :=
        ih ((j - 1) / 2) hpar (by omega)
      exact le_trans h1 (h j hj hj0 (by omega))

theorem popHeapL_length (l : List (NodeH α)) : (popHeapL l).length = l.length := by
  unfold popHeapL
  split
  · rfl
  · rw [siftDownF_length, length_lswap]

theorem popHeapL_perm (l : List (NodeH α)) : List.Perm (popHeapL l) l := by
  unfold popHeapL
  split
  · exact List.Perm.refl l
  · rename_i hlen
    have hsw : (lswap l 0 (l.length - 1)).length = l.length := length_lswap _ _ _
    exact (siftDownF_perm _ _ _ _ (by omega) (by omega)).trans
      (lswap_perm l 0 (l.length - 1) (by omega) (by omega))

/-- Contract of `std::pop_heap`: the old root moves to the back. -/
theorem popHeapL_back (l : List (NodeH α)) (hne : l ≠ []) :
    ndAt (popHeapL l) (l.length - 1) = ndAt l 0 := by
  have hpos : 0 < l.length := List.length_pos.mpr hne
  unfold popHeapL
  split
  · rename_i hlen
    have : l.length - 1 = 0 := by omega
    rw [this]
  · rename_i hlen
    have hsw : (lswap l 0 (l.length - 1)).length = l.length := length_lswap _ _ _
    rw [siftDownF_ndAt_ge _ _ _ _ _ (by omega) (by omega) (le_refl _)]
    rw [ndAt_lswap l 0 (l.length - 1) (l.length - 1) (by omega) (by omega)]
    rw [if_pos rfl]

/-- Contract of `std::pop_heap`: the heap invariant holds on the shortened prefix. -/
theorem popHeapL_heapFrom (l : List (NodeH α)) (h : HeapProp l) :
    HeapFromB (popHeapL l) 0 (l.length - 1) := by
  unfold popHeapL
  split
  · rename_i hlen
    intro c hc hc0 _
    omega
  · rename_i hlen
    have hsw : (lswap l 0 (l.length - 1)).length = l.length := length_lswap _ _ _
    apply siftDownF_heapFrom _ _ _ _ _ (by omega) (by omega)
    refine ⟨le_refl 0, by omega, ?_, ?_⟩
    · intro c hc hc0 _ hne
      have hparc : (c - 1) / 2 < c := by omega
      rw [ndAt_lswap l 0 (l.length - 1) _ (by omega) (by omega),
        ndAt_lswap l 0 (l.length - 1) _ (by omega) (by omega)]
      rw [if_neg (by omega), if_neg (by omega), if_neg (by omega), if_neg (by omega)]
      exact h c (by omega) hc0 (by omega)
    · intro hff
      omega

end HeapLemmas

/-- Lookup in the `nodes_map_` `std::unordered_map` (keyed by the state
hash). -/
def lookupH {α : Type} (m : List (Nat × NodeH α)) (h : Nat) : Option (NodeH α) :=
  match m with
  | [] => none
  | kv :: rest => if kv.1 = h then some kv.2 else lookupH rest h

/-- Effect of `nodes_map_.erase(key)`. -/
def eraseKeyH {α : Type} (m : List (Nat × NodeH α)) (h : Nat) :
    List (Nat × NodeH α) :=
  match m with
  | [] => []
  | kv :: rest => if kv.1 = h then rest else kv :: eraseKeyH rest h

/-- The OPEN list: the heap vector and the hash-indexed node map. The C++
stores `shared_ptr`s to one node object from both containers; the update
branch of `pushOrUpdate` writes through that alias, which the model renders
by rewriting the entry with the matching state hash in both containers. -/
structure OpenListS (α : Type) where
  heap : List (NodeH α)
  map : List (Nat × NodeH α)
deriving Repr, DecidableEq

/-- Model of `OpenList::pushOrUpdate`: insert into the map; when the
state hash is new, append the node to the heap vector and `push_heap`;
when present with a strictly larger cost g, overwrite the shared node
(`*insert_result.first->second = *node`) and `make_heap`; return whether a
new entry was inserted. -/
def pushOrUpdateS {α : Type} [LinearOrder α] [Inhabited α]
    (ol : OpenListS α) (nd : NodeH α) : Bool × OpenListS α :=
  match lookupH ol.map nd.stateHash with
  | none =>
    (true, ⟨pushHeapL (ol.heap ++ [nd]), ol.map ++ [(nd.stateHash, nd)]⟩)
  | some old =>
    if old.costG > nd.costG then
      (false,
       ⟨makeHeapL (ol.heap.map (fun x => if x.stateHash = nd.stateHash then nd else x)),
        ol.map.map (fun kv => if kv.1 = nd.stateHash then (kv.1, nd) else kv)⟩)
    else (false, ol)

/-- Model of `OpenList::pop`: `pop_heap` moves the cheapest node to the
back, `pop_back` removes it, and its hash is erased from the map. -/
def popS {α : Type} [LinearOrder α] [Inhabited α] (ol : OpenListS α) :
    NodeH α × OpenListS α :=
  ((ndAt (popHeapL ol.heap) (ol.heap.length - 1)),
   ⟨(popHeapL ol.heap).dropLast,
    eraseKeyH ol.map (ndAt (popHeapL ol.heap) (ol.heap.length - 1)).stateHash⟩)

/-- The OPEN-list operations claim C4 quantifies over (`pop` on an empty
list is undefined behaviour in C++ and modelled as a no-op, so sequences
are unconstrained). -/
inductive HOp (α : Type) where
  | push (nd : NodeH α)
  | pop
deriving Repr, DecidableEq

/-- The empty OPEN list. -/
def emptyOL (α : Type) : OpenListS α := ⟨[], []⟩

/-- Run a sequence of OPEN-list operations. -/
def execH {α : Type} [LinearOrder α] [Inhabited α] (ol : OpenListS α) :
    List (HOp α) → OpenListS α
  | [] => ol
  | HOp.push nd :: rest => execH (pushOrUpdateS ol nd).2 rest
  | HOp.pop :: rest => execH (if ol.heap = [] then ol else (popS ol).2) rest

/-- Well-formedness of the OPEN list: the heap vector satisfies the heap
invariant, heap and map hold the same nodes (keyed by their state hash),
and state hashes are unique. -/
def OLInv {α : Type} [LinearOrder α] [Inhabited α] (ol : OpenListS α) : Prop :=
  HeapProp ol.heap ∧
    (∀ nd ∈ ol.heap, (nd.stateHash, nd) ∈ ol.map) ∧
    (∀ kv ∈ ol.map, kv.2 ∈ ol.heap) ∧
    (∀ kv ∈ ol.map, kv.2.stateHash = kv.1) ∧
    (ol.map.map Prod.fst).Nodup ∧
    (ol.heap.map NodeH.stateHash).Nodup

instance {α : Type} [LinearOrder α] [Inhabited α] (ol : OpenListS α) :
    Decidable (OLInv ol) := by
  unfold OLInv
  infer_instance

section OpenListLemmas

variable {α : Type} [LinearOrder α] [Inhabited α]

theorem lookupH_eq_none_iff (m : List (Nat × NodeH α)) (h : Nat) :
    lookupH m h = none ↔ h ∉ m.map Prod.fst := by
  induction m with
  | nil => simp [lookupH]
  | cons kv rest ih =>
    by_cases hk : kv.1 = h
    · simp [lookupH, hk]
    · simp [lookupH, hk, ih]
      omega

theorem mem_of_lookupH (m : List (Nat × NodeH α)) (h : Nat) (v : NodeH α)
    (hl : lookupH m h = some v) : (h, v) ∈ m := by
  induction m with
  | nil => simp [lookupH] at hl
  | cons kv rest ih =>
    by_cases hk : kv.1 = h
    · rw [lookupH, if_pos hk] at hl
      have : (h, v) = kv := by
        rw [← hk, ← Option.some_inj.mp hl]
      rw [this]
      exact List.mem_cons_self _ _
    · rw [lookupH, if_neg hk] at hl
      exact List.mem_cons_of_mem _ (ih hl)

theorem eraseKeyH_sublist (m : List (Nat × NodeH α)) (h : Nat) :
    List.Sublist (eraseKeyH m h) m := by
  induction m with
  | nil => simp [eraseKeyH]
  | cons kv rest ih =>
    unfold eraseKeyH
    split
    · exact List.sublist_cons_self kv rest
    · exact List.Sublist.cons₂ kv ih

theorem mem_eraseKeyH_ne (m : List (Nat × NodeH α)) (h : Nat)
    (hnd : (m.map Prod.fst).Nodup) :
    ∀ kv ∈ eraseKeyH m h, kv.1 ≠ h := by
  induction m with
  | nil => simp [eraseKeyH]
  | cons kv0 rest ih =>
    intro kv hkv
    rw [eraseKeyH] at hkv
    split at hkv
    · rename_i hk0
      have hnotin : kv0.1 ∉ rest.map Prod.fst := by
        simp only [List.map_cons, List.nodup_cons] at hnd
        exact hnd.1
      intro hkh
      apply hnotin
      rw [← hk0] at hkh
      rw [← hkh]
      exact List.mem_map_of_mem _ hkv
    · rename_i hk0
      rcases List.mem_cons.mp hkv with heq | hmem
      · rw [heq]
        exact hk0
      · exact ih (by simp only [List.map_cons, List.nodup_cons] at hnd; exact hnd.2)
          kv hmem

theorem mem_eraseKeyH_of_ne (m : List (Nat × NodeH α)) (h : Nat) (kv : Nat × NodeH α)
    (hkv : kv ∈ m) (hne : kv.1 ≠ h) : kv ∈ eraseKeyH m h := by
  induction m with
  | nil => simp at hkv
  | cons kv0 rest ih =>
    rw [eraseKeyH]
    split
    · rename_i hk0
      rcases List.mem_cons.mp hkv with heq | hmem
      · rw [heq] at hne
        exact absurd hk0 hne
      · exact hmem
    · rcases List.mem_cons.mp hkv with heq | hmem
      · rw [heq]
        exact List.mem_cons_self _ _
      · exact List.mem_cons_of_mem _ (ih hmem)

theorem eq_dropLast_append (l : List (NodeH α)) (hne : l ≠ []) :
    l = l.dropLast ++ [ndAt l (l.length - 1)] := by
  have hpos : 0 < l.length := List.length_pos.mpr hne
  have hnd : ndAt l (l.length - 1) = l.getLast hne := by
    unfold ndAt
    rw [List.getD_eq_getElem?_getD, List.getElem?_eq_getElem (by omega),
      List.getLast_eq_getElem]
    rfl
  rw [hnd, List.dropLast_append_getLast hne]

theorem ndAt_mem (l : List (NodeH α)) (i : Nat) (hi : i < l.length) :
    ndAt l i ∈ l := by
  unfold ndAt
  rw [List.getD_eq_getElem?_getD, List.getElem?_eq_getElem hi]
  exact List.getElem_mem hi

/-- Minimality of the popped node: the `pop` result costs no more than any
node remaining in the heap. -/
theorem popS_min (ol : OpenListS α) (hinv : OLInv ol) (hne : ol.heap ≠ []) :
    ∀ x ∈ (popS ol).2.heap, ((popS ol).1).costF ≤ x.costF := by
  obtain ⟨hp, _, _, _, _, _⟩ := hinv
  intro x hx
  have hpos : 0 < ol.heap.length := List.length_pos.mpr hne
  have hback : (popS ol).1 = ndAt ol.heap 0 := popHeapL_back ol.heap hne
  rw [hback]
  have hlen : (popHeapL ol.heap).length = ol.heap.length := popHeapL_length _
  have hxmem : x ∈ ol.heap := by
    have h1 : x ∈ popHeapL ol.heap := List.dropLast_sublist _ |>.mem hx
    exact (popHeapL_perm ol.heap).mem_iff.mp h1
  obtain ⟨j, hj, hxj⟩ := List.getElem_of_mem hxmem
  have hxnd : ndAt ol.heap j = x := by
    unfold ndAt
    rw [List.getD_eq_getElem?_getD, List.getElem?_eq_getElem hj, hxj]
    rfl
  rw [← hxnd]
  exact heapFromB_root_min ol.heap ol.heap.length hp j hj

/-- The whole OPEN-list invariant is preserved by `pop`. -/
theorem popS_inv (ol : OpenListS α) (hinv : OLInv ol) (hne : ol.heap ≠ []) :
    OLInv (popS ol).2 := by
  obtain ⟨hp, hs1, hs2, hk, hndk, hndh⟩ := hinv
  have hpos : 0 < ol.heap.length := List.length_pos.mpr hne
  have hlen : (popHeapL ol.heap).length = ol.heap.length := popHeapL_length _
  have hpne : popHeapL ol.heap ≠ [] := by
    intro hcon
    rw [hcon] at hlen
    simp at hlen
    omega
  set popped := (popS ol).1 with hpop
  have hpop' : popped = ndAt (popHeapL ol.heap) (ol.heap.length - 1) := rfl
  have hdecomp : popHeapL ol.heap = (popS ol).2.heap ++ [popped] := by
    rw [hpop']
    have := eq_dropLast_append (popHeapL ol.heap) hpne
    rw [hlen] at this
    exact this
  have hperm : List.Perm ((popS ol).2.heap ++ [popped]) ol.heap := by
    rw [← hdecomp]
    exact popHeapL_perm ol.heap
  have hmemiff : ∀ x : NodeH α, x ∈ ol.heap ↔ x ∈ (popS ol).2.heap ∨ x = popped := by
    intro x
    rw [← hperm.mem_iff]
    simp
  -- hashes of the decomposed heap are nodup
  have hndh' : (((popS ol).2.heap ++ [popped]).map NodeH.stateHash).Nodup :=
    (hperm.map NodeH.stateHash).nodup_iff.mpr hndh
  have hhashnot : popped.stateHash ∉ (popS ol).2.heap.map NodeH.stateHash := by
    rw [List.map_append] at hndh'
    simp only [List.map_cons, List.map_nil] at hndh'
    have := List.disjoint_of_nodup_append hndh'
    intro hmem
    exact this hmem (by simp)
  refine ⟨?_, ?_, ?_, ?_, ?_, ?_⟩
  · -- heap invariant on the shortened heap
    have hhf := popHeapL_heapFrom ol.heap hp
    intro c hc hc0 hstart
    have hlen2 : (popS ol).2.heap.length = ol.heap.length - 1 := by
      show (popHeapL ol.heap).dropLast.length = ol.heap.length - 1
      rw [List.length_dropLast, hlen]
    rw [hlen2] at hc
    have hparc : (c - 1) / 2 < ol.heap.length - 1 := by omega
    have hd1 : ndAt (popS ol).2.heap c = ndAt (popHeapL ol.heap) c := by
      show ndAt (popHeapL ol.heap).dropLast c = _
      rw [List.dropLast_eq_take]
      exact ndAt_take _ _ _ (by omega)
    have hd2 : ndAt (popS ol).2.heap ((c - 1) / 2) = ndAt (popHeapL ol.heap) ((c - 1) / 2) := by
      show ndAt (popHeapL ol.heap).dropLast _ = _
      rw [List.dropLast_eq_take]
      exact ndAt_take _ _ _ (by omega)
    rw [hd1, hd2]
    exact hhf c hc hc0 hstart
  · -- heap nodes are in the map
    intro nd hnd
    have hndheap : nd ∈ ol.heap := (hmemiff nd).mpr (Or.inl hnd)
    have hpair := hs1 nd hndheap
    apply mem_eraseKeyH_of_ne _ _ _ hpair
    simp only
    intro hhash
    rw [← hpop'] at hhash
    apply hhashnot
    rw [← hhash]
    exact List.mem_map_of_mem _ hnd
  · -- map values are in the heap
    intro kv hkv
    have hkvm : kv ∈ ol.map := (eraseKeyH_sublist _ _).mem hkv
    have hkvheap := hs2 kv hkvm
    rcases (hmemiff kv.2).mp hkvheap with h | h
    · exact h
    · exfalso
      have hkey : kv.1 ≠ popped.stateHash := mem_eraseKeyH_ne ol.map _ hndk kv hkv
      apply hkey
      rw [← hk kv hkvm, h]
  · -- map keys are the value hashes
    intro kv hkv
    exact hk kv ((eraseKeyH_sublist _ _).mem hkv)
  · -- map keys are nodup
    exact ((eraseKeyH_sublist ol.map _).map Prod.fst).nodup hndk
  · -- heap hashes are nodup
    rw [List.map_append] at hndh'
    exact (List.nodup_append.mp hndh').1

theorem pushHeapL_perm (l : List (NodeH α)) (hne : l ≠ []) :
    List.Perm (pushHeapL l) l := by
  unfold pushHeapL
  have hpos : 0 < l.length := List.length_pos.mpr hne
  exact siftUpF_perm _ _ _ (by omega)

/-- The OPEN-list invariant is preserved by the insert branch of
`pushOrUpdate`. -/
theorem pushS_insert_inv (ol : OpenListS α) (nd : NodeH α) (hinv : OLInv ol)
    (hnone : lookupH ol.map nd.stateHash = none) :
    OLInv (pushOrUpdateS ol nd).2 := by
  obtain ⟨hp, hs1, hs2, hk, hndk, hndh⟩ := hinv
  have hkeynot : nd.stateHash ∉ ol.map.map Prod.fst :=
    (lookupH_eq_none_iff _ _).mp hnone
  have hhashnot : nd.stateHash ∉ ol.heap.map NodeH.stateHash := by
    intro hmem
    obtain ⟨x, hx, hxh⟩ := List.mem_map.mp hmem
    apply hkeynot
    rw [← hxh]
    exact List.mem_map_of_mem _ (hs1 x hx)
  unfold pushOrUpdateS
  rw [hnone]
  simp only
  have hperm : List.Perm (pushHeapL (ol.heap ++ [nd])) (ol.heap ++ [nd]) :=
    pushHeapL_perm _ (by simp)
  have hmemiff : ∀ x : NodeH α,
      x ∈ pushHeapL (ol.heap ++ [nd]) ↔ x ∈ ol.heap ∨ x = nd := by
    intro x
    rw [hperm.mem_iff]
    simp
  refine ⟨pushHeapL_heap ol.heap nd hp, ?_, ?_, ?_, ?_, ?_⟩
  · intro x hx
    rcases (hmemiff x).mp hx with h | h
    · exact List.mem_append_left _ (hs1 x h)
    · rw [h]
      exact List.mem_append_right _ (List.mem_singleton_self _)
  · intro kv hkv
    rcases List.mem_append.mp hkv with h | h
    · exact (hmemiff kv.2).mpr (Or.inl (hs2 kv h))
    · rw [List.mem_singleton.mp h]
      exact (hmemiff nd).mpr (Or.inr rfl)
  · intro kv hkv
    rcases List.mem_append.mp hkv with h | h
    · exact hk kv h
    · rw [List.mem_singleton.mp h]
  · rw [List.map_append]
    rw [List.nodup_append]
    refine ⟨hndk, by simp, ?_⟩
    intro a ha hb
    simp at hb
    rw [hb] at ha
    exact hkeynot ha
  · have h1 : List.Perm ((pushHeapL (ol.heap ++ [nd])).map NodeH.stateHash)
        ((ol.heap ++ [nd]).map NodeH.stateHash) := hperm.map _
    rw [h1.nodup_iff, List.map_append, List.nodup_append]
    refine ⟨hndh, by simp, ?_⟩
    intro a ha hb
    simp at hb
    rw [hb] at ha
    exact hhashnot ha

theorem lookupH_replPair (m : List (Nat × NodeH α)) (h : Nat) (v : NodeH α)
    (hsome : (lookupH m h).isSome) :
    lookupH (m.map (fun kv => if kv.1 = h then (kv.1, v) else kv)) h = some v := by
  induction m with
  | nil => simp [lookupH] at hsome
  | cons kv rest ih =>
    by_cases hkh : kv.1 = h
    · subst hkh
      simp [lookupH]
    · rw [lookupH, if_neg hkh] at hsome
      simp only [List.map_cons, if_neg hkh, lookupH, if_neg hkh]
      exact ih hsome

/-- The OPEN-list invariant is preserved by the overwrite branch of
`pushOrUpdate`. -/
theorem pushS_update_inv (ol : OpenListS α) (nd old : NodeH α) (hinv : OLInv ol)
    (hsome : lookupH ol.map nd.stateHash = some old) (hlt : old.costG > nd.costG) :
    OLInv (pushOrUpdateS ol nd).2 := by
  obtain ⟨hp, hs1, hs2, hk, hndk, hndh⟩ := hinv
  unfold pushOrUpdateS
  rw [hsome]
  simp only [if_pos hlt]
  set repl := fun x : NodeH α => if x.stateHash = nd.stateHash then nd else x with hrepl
  set replP := fun kv : Nat × NodeH α =>
    if kv.1 = nd.stateHash then (kv.1, nd) else kv with hreplP
  have hhash : ∀ x : NodeH α, (repl x).stateHash = x.stateHash := by
    intro x
    rw [hrepl]
    simp only
    split
    · rename_i hx
      rw [hx]
    · rfl
  have hkey : ∀ kv : Nat × NodeH α, (replP kv).1 = kv.1 := by
    intro kv
    rw [hreplP]
    simp only
    split <;> rfl
  have hmapmap : (ol.heap.map repl).map NodeH.stateHash = ol.heap.map NodeH.stateHash := by
    rw [List.map_map]
    exact List.map_congr_left (fun x _ => hhash x)
  have hkeymap : ((ol.map.map replP).map Prod.fst) = ol.map.map Prod.fst := by
    rw [List.map_map]
    exact List.map_congr_left (fun kv _ => hkey kv)
  have hperm : List.Perm (makeHeapL (ol.heap.map repl)) (ol.heap.map repl) :=
    makeHeapL_perm _
  refine ⟨makeHeapL_heap _, ?_, ?_, ?_, ?_, ?_⟩
  · intro x hx
    have hx' : x ∈ ol.heap.map repl := hperm.mem_iff.mp hx
    obtain ⟨y, hy, hyx⟩ := List.mem_map.mp hx'
    have hpairy := hs1 y hy
    apply List.mem_map.mpr
    refine ⟨(y.stateHash, y), hpairy, ?_⟩
    rw [hreplP]
    simp only
    rw [hrepl] at hyx
    simp only at hyx
    by_cases hyh : y.stateHash = nd.stateHash
    · rw [if_pos hyh]
      rw [if_pos hyh] at hyx
      rw [← hyx, hyh]
    · rw [if_neg hyh]
      rw [if_neg hyh] at hyx
      rw [hyx]
  · intro kv hkv
    obtain ⟨kv0, hkv0, hkveq⟩ := List.mem_map.mp hkv
    apply hperm.mem_iff.mpr
    apply List.mem_map.mpr
    refine ⟨kv0.2, hs2 kv0 hkv0, ?_⟩
    rw [hrepl]
    simp only
    rw [hreplP] at hkveq
    simp only at hkveq
    have hkv0h : kv0.2.stateHash = kv0.1 := hk kv0 hkv0
    by_cases hkh : kv0.1 = nd.stateHash
    · rw [if_pos (by rw [hkv0h]; exact hkh)]
      rw [if_pos hkh] at hkveq
      rw [← hkveq]
    · rw [if_neg (by rw [hkv0h]; exact hkh)]
      rw [if_neg hkh] at hkveq
      rw [← hkveq]
  · intro kv hkv
    obtain ⟨kv0, hkv0, hkveq⟩ := List.mem_map.mp hkv
    rw [hreplP] at hkveq
    simp only at hkveq
    by_cases hkh : kv0.1 = nd.stateHash
    · rw [if_pos hkh] at hkveq
      rw [← hkveq]
      simp only
      rw [hkh]
    · rw [if_neg hkh] at hkveq
      rw [← hkveq]
      exact hk kv0 hkv0
  · rw [hkeymap]
    exact hndk
  · rw [(hperm.map NodeH.stateHash).nodup_iff, hmapmap]
    exact hndh

theorem pushOrUpdateS_inv (ol : OpenListS α) (nd : NodeH α) (hinv : OLInv ol) :
    OLInv (pushOrUpdateS ol nd).2 := by
  cases hl : lookupH ol.map nd.stateHash with
  | none => exact pushS_insert_inv ol nd hinv hl
  | some old =>
    by_cases hlt : old.costG > nd.costG
    · exact pushS_update_inv ol nd old hinv hl hlt
    · unfold pushOrUpdateS
      rw [hl]
      simp only [if_neg hlt]
      exact hinv

theorem execH_inv (ops : List (HOp α)) (ol : OpenListS α) (hinv : OLInv ol) :
    OLInv (execH ol ops) := by
  induction ops generalizing ol with
  | nil => exact hinv
  | cons op rest ih =>
    cases op with
    | push nd => exact ih _ (pushOrUpdateS_inv ol nd hinv)
    | pop =>
      show OLInv (execH (if ol.heap = [] then ol else (popS ol).2) rest)
      by_cases hne : ol.heap = []
      · rw [if_pos hne]
        exact ih _ hinv
      · rw [if_neg hne]
        exact ih _ (popS_inv ol hinv hne)

theorem emptyOL_inv : OLInv (emptyOL α) := by
  refine ⟨?_, ?_, ?_, ?_, ?_, ?_⟩ <;> simp [emptyOL, HeapProp, HeapFromB]

end OpenListLemmas

/-- Claim C4: starting from an empty OPEN list, after any sequence of
pushOrUpdate and pop operations the well-formedness invariant holds; for any
well-formed OPEN list, every node returned by pop has costF less than or
equal to the costF of every node still contained in OPEN at the moment of
the pop (and the invariant is preserved); pushOrUpdate inserts a new entry
iff no node with the same state-hash is present (returning true exactly
then), and when one is present it overwrites it iff the new node's costG is
strictly lower (the invariant again being preserved). -/
theorem c4_open_list_correct {α : Type} [LinearOrder α] [Inhabited α]
    (ops : List (HOp α)) (ol : OpenListS α) (nd : NodeH α) :
    OLInv (execH (emptyOL α) ops) ∧
      (OLInv ol → ol.heap ≠ [] →
        (∀ x ∈ (popS ol).2.heap, ((popS ol).1).costF ≤ x.costF) ∧ OLInv (popS ol).2) ∧
      (OLInv ol →
        ((pushOrUpdateS ol nd).1 = true ↔ lookupH ol.map nd.stateHash = none) ∧
        (∀ old, lookupH ol.map nd.stateHash = some old →
          (nd.costG < old.costG →
            lookupH (pushOrUpdateS ol nd).2.map nd.stateHash = some nd) ∧
          (¬ nd.costG < old.costG → (pushOrUpdateS ol nd).2 = ol)) ∧
        OLInv (pushOrUpdateS ol nd).2) := by
  refine ⟨execH_inv ops (emptyOL α) emptyOL_inv, ?_, ?_⟩
  · intro hinv hne
    exact ⟨popS_min ol hinv hne, popS_inv ol hinv hne⟩
  · intro hinv
    refine ⟨?_, ?_, pushOrUpdateS_inv ol nd hinv⟩
    · cases hl : lookupH ol.map nd.stateHash with
      | none =>
        unfold pushOrUpdateS
        rw [hl]
        simp
      | some old =>
        unfold pushOrUpdateS
        rw [hl]
        by_cases hlt : old.costG > nd.costG
        · simp only [if_pos hlt]
          simp
        · simp only [if_neg hlt]
          simp
    · intro old hl
      constructor
      · intro hlt
        unfold pushOrUpdateS
        rw [hl]
        simp only [if_pos hlt]
        exact lookupH_replPair ol.map nd.stateHash nd (by rw [hl]; rfl)
      · intro hnlt
        unfold pushOrUpdateS
        rw [hl]
        simp only [if_neg hnlt]

/-- Witness for C4 over integer costs: two pushes and a pop from the empty
list keep the invariant; popping the two-node heap {hash 1 ↦ costF 5,
hash 2 ↦ costF 7} returns the cost-5 node, which costs no more than the
remaining node; pushing a node with hash 2 and strictly lower costG 6
returns false and overwrites the mapped node. -/
theorem c4_witness :
    OLInv (execH (emptyOL Int)
      [HOp.push ⟨1, 5, 5⟩, HOp.push ⟨2, 7, 7⟩, HOp.pop]) ∧
    ((popS ⟨[⟨1, 5, 5⟩, ⟨2, 7, 7⟩], [(1, ⟨1, 5, 5⟩), (2, ⟨2, 7, 7⟩)]⟩).1).costF ≤
      (ndAt (popS (⟨[⟨1, 5, 5⟩, ⟨2, 7, 7⟩],
        [(1, ⟨1, 5, 5⟩), (2, ⟨2, 7, 7⟩)]⟩ : OpenListS Int)).2.heap 0).costF ∧
    (pushOrUpdateS (⟨[⟨1, 5, 5⟩, ⟨2, 7, 7⟩],
        [(1, ⟨1, 5, 5⟩), (2, ⟨2, 7, 7⟩)]⟩ : OpenListS Int) ⟨2, 6, 6⟩).1 = false ∧
    lookupH (pushOrUpdateS (⟨[⟨1, 5, 5⟩, ⟨2, 7, 7⟩],
        [(1, ⟨1, 5, 5⟩), (2, ⟨2, 7, 7⟩)]⟩ : OpenListS Int) ⟨2, 6, 6⟩).2.map 2 =
      some ⟨2, 6, 6⟩ := by
  refine ⟨(c4_open_list_correct
      [HOp.push ⟨1, 5, 5⟩, HOp.push ⟨2, 7, 7⟩, HOp.pop]
      (⟨[⟨1, 5, 5⟩, ⟨2, 7, 7⟩], [(1, ⟨1, 5, 5⟩), (2, ⟨2, 7, 7⟩)]⟩ : OpenListS Int)
      ⟨2, 6, 6⟩).1, ?_, ?_, ?_⟩
  · exact ((c4_open_list_correct [] _ (⟨2, 6, 6⟩ : NodeH Int)).2.1
      (by decide) (by decide)).1 _ (by decide)
  · have hiff := ((c4_open_list_correct ([] : List (HOp Int))
      (⟨[⟨1, 5, 5⟩, ⟨2, 7, 7⟩], [(1, ⟨1, 5, 5⟩), (2, ⟨2, 7, 7⟩)]⟩ : OpenListS Int)
      ⟨2, 6, 6⟩).2.2 (by decide)).1
    cases hb : (pushOrUpdateS (⟨[⟨1, 5, 5⟩, ⟨2, 7, 7⟩],
        [(1, ⟨1, 5, 5⟩), (2, ⟨2, 7, 7⟩)]⟩ : OpenListS Int) ⟨2, 6, 6⟩).1 with
    | false => rfl
    | true =>
      have := hiff.mp hb
      exact absurd this (by decide)
  · exact (((c4_open_list_correct ([] : List (HOp Int))
      (⟨[⟨1, 5, 5⟩, ⟨2, 7, 7⟩], [(1, ⟨1, 5, 5⟩), (2, ⟨2, 7, 7⟩)]⟩ : OpenListS Int)
      ⟨2, 6, 6⟩).2.2 (by decide)).2.1 ⟨2, 7, 7⟩ (by decide)).1 (by decide)

end Obf

